import Mathlib

/-!
# Verification of the `radish` RESP2 codec

A shallow embedding of the `radish` RESP reader and writer (the Redis
serialization protocol codec of the mini-redis repository) together with
proofs about the checked properties.

Bytes are modelled as natural numbers (the values produced by the code are
always < 256), byte strings as `List Nat`.  The Go `int` type is modelled as
`Int` with explicit wrap-around modulo `2 ^ 64` wherever the source can
overflow (`parseInt`).  The buffered reader (`bufio.Reader`) over an
in-memory byte source is modelled by the remaining byte list together with
the buffer size (`bufio.NewReader` uses 4096); `ReadSlice('\n')` returns the
bytes up to and including the first LF when it lies inside the buffer, a
full buffer with `ErrBufferFull` when no LF is within reach, and the rest
with `io.EOF` when the source is exhausted before an LF.

Loops of the source are written with explicit fuel; every call site passes
enough fuel (each iteration consumes at least one input byte), so the
out-of-fuel branch is unreachable at the stated inputs.
-/

namespace Radish

/-- ASCII bytes of a Lean string literal (used only for ASCII constants). -/
def strBytes (s : String) : List Nat := s.data.map Char.toNat

/-! ## DataType constants (writer.go) -/

def DataTypeSimpleString : Nat := 43  -- '+'
def DataTypeError : Nat := 45         -- '-'
def DataTypeInteger : Nat := 58       -- ':'
def DataTypeBulkString : Nat := 36    -- '$'
def DataTypeArray : Nat := 42         -- '*'
def DataTypeNull : Nat := 95          -- '_'

/-! ## Writer (writer.go)

The `Writer` buffers bytes and `Flush` forwards them to the sink, so each
write operation is modelled by the byte list it appends; a sequence of
writes followed by `Flush` delivers the concatenation. -/

/-- Little-endian decimal digit bytes of `n`; 64 digits of fuel cover every
value representable in 64 bits (`strconv.AppendInt` input). -/
def natDecDigits : Nat → Nat → List Nat
  | 0, _ => []
  | fuel + 1, n => if n = 0 then [] else (n % 10 + 48) :: natDecDigits fuel (n / 10)

/-- Big-endian ASCII decimal representation of a natural number. -/
def natDec (n : Nat) : List Nat :=
  if n = 0 then [48] else (natDecDigits 64 n).reverse

/-- ASCII decimal representation of an integer (`strconv.AppendInt(_, i, 10)`). -/
def intDec (i : Int) : List Nat :=
  if i < 0 then 45 :: natDec i.natAbs else natDec i.toNat

/-- `Writer.writeInt`: fast path for a single digit, otherwise the decimal
form via the scratch buffer. -/
def writeInt (i : Int) : List Nat :=
  if 0 ≤ i ∧ i ≤ 9 then [48 + i.toNat] else intDec i

/-- `Writer.writeEscapedString`: emit every byte, replacing CR by `\r` and
LF by `\n` (92 is the backslash, 114 is `r`, 110 is `n`). -/
def writeEscapedString (s : List Nat) : List Nat :=
  s.flatMap fun ch => if ch = 13 then [92, 114] else if ch = 10 then [92, 110] else [ch]

/-- The scan of `Writer.writeString`: does the payload contain a CR or LF? -/
def containsCRLF (s : List Nat) : Bool :=
  s.any fun ch => ch == 13 || ch == 10

/-- `Writer.writeString`: scan once; if any CR/LF is present write the
escaped form, otherwise the bytes verbatim. -/
def writeString (s : List Nat) : List Nat :=
  if containsCRLF s then writeEscapedString s else s

/-- `Writer.writeTerminator`: CRLF. -/
def writeTerminator : List Nat := [13, 10]

/-- `Writer.writePrefix`: prefix byte, decimal `n`, CRLF. -/
def writePrefix (pfx : Nat) (n : Int) : List Nat :=
  pfx :: writeInt n ++ writeTerminator

/-- `Writer.WriteSimpleString`. -/
def WriteSimpleString (s : List Nat) : List Nat :=
  DataTypeSimpleString :: writeString s ++ writeTerminator

/-- `Writer.WriteRawError`. -/
def WriteRawError (kind msg : List Nat) : List Nat :=
  let kind' := if kind = [] then strBytes "ERR" else kind
  DataTypeError :: writeString kind' ++
    (if msg ≠ [] then 32 :: writeString msg else []) ++ writeTerminator

/-- `Writer.WriteError` forwards the kind and message of the error value. -/
def WriteError (e : List Nat × List Nat) : List Nat :=
  WriteRawError e.1 e.2

/-- `Writer.WriteInt64`. -/
def WriteInt64 (i : Int) : List Nat :=
  DataTypeInteger :: writeInt i ++ writeTerminator

/-- `Writer.WriteString` (a RESP bulk string; `WriteBytes` is identical). -/
def WriteString (s : List Nat) : List Nat :=
  writePrefix DataTypeBulkString (s.length : Int) ++ s ++ writeTerminator

/-- `Writer.WriteArray`: only the array header. -/
def WriteArray (n : Int) : List Nat :=
  writePrefix DataTypeArray n

/-- `Writer.WriteNull`. -/
def WriteNull : List Nat := strBytes "$-1\r\n"

/-! ## Small parsers (reader.go) -/

/-- Two's-complement wrap-around of Go 64-bit signed integer arithmetic. -/
def wrap64 (x : Int) : Int := (x + 2 ^ 63) % 2 ^ 64 - 2 ^ 63

/-- The digit loop of `parseInt`; `ch -= '0'` is Go byte arithmetic
(wrap-around modulo 256), `n = n*10 + int(ch)` wraps modulo `2 ^ 64`.
`none` models the `errValue` error. -/
def parseIntLoop : List Nat → Int → Option Int
  | [], n => some n
  | ch :: rest, n =>
    let d := (ch + 256 - 48) % 256
    if 9 < d then none else parseIntLoop rest (wrap64 (n * 10 + (d : Int)))

/-- `parseInt` from reader.go.  Note the source checks `len(b) < 1` after
seeing the sign while `b` still contains it, so the check never fires and a
lone `-` parses as 0. -/
def parseInt (b : List Nat) : Option Int :=
  match b with
  | [] => none
  | b0 :: rest =>
    if b0 = 45 then
      if (b0 :: rest).length < 1 then none
      else
        match parseIntLoop rest 0 with
        | none => none
        | some n => some (wrap64 (-1 * n))
    else
      match parseIntLoop (b0 :: rest) 0 with
      | none => none
      | some n => some n

/-- `hasTerminator`: the last two bytes are CR, LF. -/
def hasTerminator (b : List Nat) : Bool :=
  decide (1 < b.length) && (b.getD (b.length - 2) 0 == 13) && (b.getD (b.length - 1) 0 == 10)

/-! ## Reader (reader.go) -/

/-- Reader-side state: the remaining bytes of the source (buffered bytes
included) and the `cmd.Raw` buffer being filled. -/
structure RState where
  input : List Nat
  raw : List Nat
deriving DecidableEq, Repr

/-- Errors a read operation can surface: `eof` is `io.EOF` from the
exhausted source, `errValue` and `errLineLimitExceeded` are the internal
sentinel errors, `protocol` is a `*radish.Error` with kind and message. -/
inductive RErr where
  | eof
  | errValue
  | errLineLimitExceeded
  | protocol (kind msg : List Nat)
deriving DecidableEq, Repr

def ErrBulkLength : RErr :=
  .protocol (strBytes "ERR") (strBytes "Protocol error: invalid bulk length")

def ErrMultibulkLength : RErr :=
  .protocol (strBytes "ERR") (strBytes "Protocol error: invalid multibulk length")

def ErrIntegerValue : RErr :=
  .protocol (strBytes "ERR") (strBytes "Protocol error: invalid integer value")

/-- Result of one `bufio.Reader.ReadSlice('\n')` call. -/
inductive SliceRes where
  | ok (frag : List Nat)
  | bufferFull (frag : List Nat)
  | eofData (frag : List Nat)
deriving DecidableEq, Repr

/-- Index of the first LF byte. -/
def findLF : List Nat → Option Nat
  | [] => none
  | b :: rest => if b = 10 then some 0 else (findLF rest).map (· + 1)

/-- `bufio.Reader.ReadSlice('\n')` over an in-memory source that always
delivers everything it has: the line through the first LF when it fits in
the buffer, else a full buffer with `ErrBufferFull`, else the rest with
`io.EOF`. -/
def readSlice (bufSize : Nat) (input : List Nat) : SliceRes × List Nat :=
  match findLF input with
  | some idx =>
    if idx + 1 ≤ bufSize then (.ok (input.take (idx + 1)), input.drop (idx + 1))
    else (.bufferFull (input.take bufSize), input.drop bufSize)
  | none =>
    if bufSize ≤ input.length then (.bufferFull (input.take bufSize), input.drop bufSize)
    else (.eofData input, [])

/-- The fragment loop of `Reader.readLine`: draw slices up to the next LF,
append them to `cmd.Raw`, stop on a CRLF-terminated fragment, keep drawing
on `ErrBufferFull`, return any other error; the loop also stops once
`length` bytes reach a non-zero `limit`. -/
def readLineLoop (bufSize limit : Nat) : Nat → Nat → RState → Except RErr RState
  | 0, _, _ => .error .eof
  | fuel + 1, length, st =>
    if limit = 0 ∨ length < limit then
      match readSlice bufSize st.input with
      | (.ok frag, rest) =>
        let st' : RState := ⟨rest, st.raw ++ frag⟩
        if frag.length < 2 ∨ frag.getD (frag.length - 2) 0 ≠ 13 then
          readLineLoop bufSize limit fuel (length + frag.length) st'
        else
          .ok st'
      | (.eofData _, _) => .error .eof
      | (.bufferFull frag, rest) =>
        readLineLoop bufSize limit fuel (length + frag.length) ⟨rest, st.raw ++ frag⟩
    else
      .ok st

/-- `Reader.readLine`: run the fragment loop, then require a terminator,
check the leading data-type byte, and return the view between the type byte
and the CRLF. -/
def readLine (bufSize dt limit : Nat) (st : RState) : Except RErr (List Nat × RState) :=
  let start := st.raw.length
  match readLineLoop bufSize limit (st.input.length + 1) 0 st with
  | .error e => .error e
  | .ok st' =>
    if hasTerminator st'.raw = false then .error .errLineLimitExceeded
    else
      let ch := st'.raw.getD start 0
      if ch ≠ dt then
        .error (.protocol (strBytes "ERR")
          (strBytes "expected '" ++ [dt] ++ strBytes "', got '" ++ [ch] ++ strBytes "'"))
      else
        .ok ((st'.raw.take (st'.raw.length - 2)).drop (start + 1), st')

/-- `Reader.readValue`: read a line limited to 23 bytes
(`len(":-9223372036854775808\r\n")`), turning the limit error into
`errValue`, and parse the payload as an integer. -/
def readValue (bufSize dt : Nat) (st : RState) : Except RErr (Int × RState) :=
  match readLine bufSize dt 23 st with
  | .error e => .error (if e = .errLineLimitExceeded then .errValue else e)
  | .ok (line, st') =>
    match parseInt line with
    | none => .error .errValue
    | some n => .ok (n, st')

/-- The content loop of `Reader.readBulk`: read `remain` bytes into
`cmd.Raw`, looping on partial reads, `io.EOF` when the source runs dry. -/
def readFull : Nat → Int → RState → Except RErr RState
  | 0, _, _ => .error .eof
  | fuel + 1, remain, st =>
    if 0 < remain then
      if st.input.isEmpty then .error .eof
      else
        let t := min remain.toNat st.input.length
        readFull fuel (remain - (t : Int)) ⟨st.input.drop t, st.raw ++ st.input.take t⟩
    else
      .ok st

/-- `Reader.readBulk`: read the `$` length line (`errValue` becomes the
invalid-bulk-length error), return the null flag on a negative length,
otherwise read `length + 2` content bytes, require the CRLF terminator and
return the content view. -/
def readBulk (bufSize : Nat) (st : RState) : Except RErr (Option (List Nat) × RState) :=
  match readValue bufSize DataTypeBulkString st with
  | .error e => .error (if e = .errValue then ErrBulkLength else e)
  | .ok (bulkLength, st') =>
    if bulkLength < 0 then .ok (none, st')
    else
      let start := st'.raw.length
      let remain := bulkLength + 2
      match readFull (remain.toNat + 1) remain st' with
      | .error e => .error e
      | .ok st'' =>
        if hasTerminator st''.raw = false then .error ErrBulkLength
        else .ok (some ((st''.raw.take (st''.raw.length - 2)).drop start), st'')

/-- The parsed command: its exact wire bytes and the argument views
(modelled by their byte contents). -/
structure Command where
  Raw : List Nat
  Args : List (List Nat)
deriving DecidableEq, Repr

/-- The element loop of `Reader.ReadCommand`: read `n` bulks, surfacing the
invalid-bulk-length error when one is null, accumulating the args in order. -/
def readElems (bufSize : Nat) : Nat → RState → Except RErr (List (List Nat) × RState)
  | 0, st => .ok ([], st)
  | n + 1, st =>
    match readBulk bufSize st with
    | .error e => .error e
    | .ok (none, _) => .error ErrBulkLength
    | .ok (some arg, st') =>
      match readElems bufSize n st' with
      | .error e => .error e
      | .ok (args, st'') => .ok (arg :: args, st'')

/-- The body of `Reader.ReadCommand`: parse a `*` length line (`errValue`
becomes the invalid-multibulk-length error), retry after a reset on a
length ≤ 0 (the `goto next`), then parse the elements. -/
def readCommandLoop (bufSize : Nat) : Nat → List Nat → Except RErr Command
  | 0, _ => .error .eof
  | fuel + 1, input =>
    match readValue bufSize DataTypeArray ⟨input, []⟩ with
    | .error e => .error (if e = .errValue then ErrMultibulkLength else e)
    | .ok (arrayLength, st) =>
      if arrayLength ≤ 0 then readCommandLoop bufSize fuel st.input
      else
        match readElems bufSize arrayLength.toNat st with
        | .error e => .error e
        | .ok (args, st') => .ok ⟨st'.raw, args⟩

/-- `Reader.ReadCommand` with the deferred error handler: on error the
borrowed frame goes back to the pool (third component true) and the caller
receives a nil command handle. -/
def ReadCommand (bufSize : Nat) (input : List Nat) :
    Option Command × Option RErr × Bool :=
  match readCommandLoop bufSize (input.length + 1) input with
  | .ok cmd => (some cmd, none, false)
  | .error e => (none, some e, true)

/-- `Reader.ReadSimpleString` (success value only; a fresh pooled frame is
used as scratch). -/
def ReadSimpleString (bufSize : Nat) (input : List Nat) : Except RErr (List Nat) :=
  match readLine bufSize DataTypeSimpleString 0 ⟨input, []⟩ with
  | .error e => .error e
  | .ok (line, _) => .ok line

/-- `Reader.ReadInteger`: `errValue` becomes the invalid-integer-value
error. -/
def ReadInteger (bufSize : Nat) (input : List Nat) : Except RErr Int :=
  match readValue bufSize DataTypeInteger ⟨input, []⟩ with
  | .error e => .error (if e = .errValue then ErrIntegerValue else e)
  | .ok (n, _) => .ok n

/-- `Reader.ReadString`: a bulk string together with its null flag. -/
def ReadString (bufSize : Nat) (input : List Nat) : Except RErr (List Nat × Bool) :=
  match readBulk bufSize ⟨input, []⟩ with
  | .error e => .error e
  | .ok (none, _) => .ok ([], true)
  | .ok (some b, _) => .ok (b, false)

/-- `Reader.ReadArray`: the declared length of an array header. -/
def ReadArray (bufSize : Nat) (input : List Nat) : Except RErr Int :=
  match readValue bufSize DataTypeArray ⟨input, []⟩ with
  | .error e => .error (if e = .errValue then ErrMultibulkLength else e)
  | .ok (n, _) => .ok n

/-! ## List helpers -/

theorem getD_append_right (xs ys : List Nat) (i d : Nat) :
    (xs ++ ys).getD (xs.length + i) d = ys.getD i d := by
  induction xs with
  | nil => simp
  | cons a xs ih => simpa [Nat.succ_add] using ih

theorem getD_append_left (xs ys : List Nat) (i d : Nat) (h : i < xs.length) :
    (xs ++ ys).getD i d = xs.getD i d := by
  induction xs generalizing i with
  | nil => simp at h
  | cons a xs ih =>
    cases i with
    | zero => simp
    | succ i => simpa using ih i (by simpa using h)

theorem take_append_self (xs ys : List Nat) : (xs ++ ys).take xs.length = xs := by
  induction xs with
  | nil => simp
  | cons a xs ih => simpa using ih

theorem drop_append_self (xs ys : List Nat) : (xs ++ ys).drop xs.length = ys := by
  induction xs with
  | nil => simp
  | cons a xs ih => simpa using ih

theorem take_append_add (xs ys : List Nat) (n : Nat) :
    (xs ++ ys).take (xs.length + n) = xs ++ ys.take n := by
  induction xs with
  | nil => simp
  | cons a xs ih => simpa [Nat.succ_add] using ih

theorem drop_append_add (xs ys : List Nat) (n : Nat) :
    (xs ++ ys).drop (xs.length + n) = ys.drop n := by
  induction xs with
  | nil => simp
  | cons a xs ih => simpa [Nat.succ_add] using ih

theorem exists_append_two (l : List Nat) (h : 2 ≤ l.length) :
    ∃ m x y, l = m ++ [x, y] ∧ m.length = l.length - 2 := by
  induction l with
  | nil => simp at h
  | cons a l ih =>
    match l with
    | [] => simp at h
    | [b] => exact ⟨[], a, b, rfl, rfl⟩
    | b :: c :: u =>
      obtain ⟨m, x, y, hl, hm⟩ := ih (by simp)
      refine ⟨a :: m, x, y, by rw [List.cons_append, ← hl], ?_⟩
      simp only [List.length_cons] at hm ⊢
      omega

theorem getD_of_append_two (l m : List Nat) (x y : Nat)
    (hl : l = m ++ [x, y]) (hm : m.length = l.length - 2) :
    l.getD (l.length - 2) 0 = x ∧ l.getD (l.length - 1) 0 = y := by
  subst hl
  constructor
  · rw [← hm]
    simpa using getD_append_right m [x, y] 0 0
  · have h1 : m.length + 2 - 1 = m.length + 1 := by omega
    simp only [List.length_append, List.length_cons, List.length_nil] at hm ⊢
    rw [h1]
    simpa using getD_append_right m [x, y] 1 0

theorem hasTerminator_append_crlf (xs : List Nat) :
    hasTerminator (xs ++ [13, 10]) = true := by
  have h13 := getD_append_right xs [13, 10] 0 0
  have h10 := getD_append_right xs [13, 10] 1 0
  simp only [hasTerminator, List.length_append, List.length_cons, List.length_nil]
  have e2 : xs.length + 2 - 2 = xs.length + 0 := by omega
  have e1 : xs.length + 2 - 1 = xs.length + 1 := by omega
  rw [e2, e1, h13, h10]
  simp

theorem hasTerminator_struct (l : List Nat) (h : hasTerminator l = true) :
    2 ≤ l.length ∧ l = l.take (l.length - 2) ++ [13, 10] := by
  simp only [hasTerminator, Bool.and_eq_true, decide_eq_true_eq, beq_iff_eq] at h
  obtain ⟨⟨hlen, h13⟩, h10⟩ := h
  have h2 : 2 ≤ l.length := by omega
  obtain ⟨m, x, y, hl, hm⟩ := exists_append_two l h2
  obtain ⟨hx, hy⟩ := getD_of_append_two l m x y hl hm
  refine ⟨h2, ?_⟩
  have hx13 : x = 13 := by rw [← hx, h13]
  have hy10 : y = 10 := by rw [← hy, h10]
  have htake : l.take (l.length - 2) = m := by
    rw [hl]
    have hlen2 : (m ++ [x, y]).length - 2 = m.length := by simp
    rw [hlen2]
    exact take_append_self m [x, y]
  rw [htake, hl, hx13, hy10]

theorem findLF_append_no (pre tail : List Nat) (h : ∀ b ∈ pre, b ≠ 10) :
    findLF (pre ++ 10 :: tail) = some pre.length := by
  induction pre with
  | nil => simp [findLF]
  | cons a l ih =>
    have ha : a ≠ 10 := h a (by simp)
    simp only [List.cons_append, findLF, ha, if_false]
    simp [ih fun b hb => h b (by simp [hb])]

theorem findLF_ge (l : List Nat) (k idx : Nat) (h : ∀ b ∈ l.take k, b ≠ 10)
    (hf : findLF l = some idx) : k ≤ idx := by
  induction l generalizing k idx with
  | nil => simp [findLF] at hf
  | cons a l ih =>
    by_cases ha : a = 10
    · rcases Nat.eq_zero_or_pos k with hk | hk
      · omega
      · exfalso
        refine h a ?_ ha
        obtain ⟨k', rfl⟩ := Nat.exists_eq_add_of_le hk
        simp [List.take_succ_cons, Nat.add_comm]
    · simp only [findLF, ha, if_false, Option.map_eq_some'] at hf
      obtain ⟨j, hj, rfl⟩ := hf
      rcases Nat.eq_zero_or_pos k with hk | hk
      · omega
      · obtain ⟨k', rfl⟩ := Nat.exists_eq_add_of_le hk
        have := ih k' j (fun b hb => h b (by simp [Nat.add_comm, List.take_succ_cons, hb])) hj
        omega

theorem getD_ne_ten (l : List Nat) (i : Nat) (h : ∀ b ∈ l, b ≠ 10) :
    l.getD i 0 ≠ 10 := by
  induction l generalizing i with
  | nil => simp [List.getD]
  | cons a l ih =>
    cases i with
    | zero => simpa using h a (by simp)
    | succ i => simpa using ih i fun b hb => h b (by simp [hb])

/-! ## Decimal representation and `parseInt` correctness -/

/-- The value of a big-endian ASCII digit string continued from `acc`. -/
def valFrom : Nat → List Nat → Nat
  | acc, [] => acc
  | acc, d :: l => valFrom (acc * 10 + (d - 48)) l

theorem valFrom_nil (acc : Nat) : valFrom acc [] = acc := rfl

theorem valFrom_cons (acc d : Nat) (l : List Nat) :
    valFrom acc (d :: l) = valFrom (acc * 10 + (d - 48)) l := rfl

theorem valFrom_append (acc : Nat) (xs ys : List Nat) :
    valFrom acc (xs ++ ys) = valFrom (valFrom acc xs) ys := by
  induction xs generalizing acc with
  | nil => rfl
  | cons d xs ih =>
    rw [List.cons_append]
    show valFrom (acc * 10 + (d - 48)) (xs ++ ys) = _
    rw [ih]
    rfl

theorem valFrom_ge (acc : Nat) (l : List Nat) : acc ≤ valFrom acc l := by
  induction l generalizing acc with
  | nil => simp [valFrom_nil]
  | cons d l ih =>
    have := ih (acc * 10 + (d - 48))
    rw [valFrom_cons]
    omega

theorem natDecDigits_mem (fuel n : Nat) :
    ∀ d ∈ natDecDigits fuel n, 48 ≤ d ∧ d ≤ 57 := by
  induction fuel generalizing n with
  | zero => simp [natDecDigits]
  | succ fuel ih =>
    intro d hd
    by_cases hn : n = 0
    · simp [natDecDigits, hn] at hd
    · simp only [natDecDigits, hn, if_false, List.mem_cons] at hd
      rcases hd with rfl | hd
      · have := Nat.mod_lt n (show 0 < 10 by norm_num)
        omega
      · exact ih (n / 10) d hd

theorem natDecDigits_length_le (fuel n k : Nat) (h : n < 10 ^ k) :
    (natDecDigits fuel n).length ≤ k := by
  induction fuel generalizing n k with
  | zero => simp [natDecDigits]
  | succ fuel ih =>
    by_cases hn : n = 0
    · simp [natDecDigits, hn]
    · have hk : k ≠ 0 := by
        rintro rfl
        simp only [pow_zero] at h
        omega
      obtain ⟨k', rfl⟩ := Nat.exists_eq_succ_of_ne_zero hk
      have hdiv : n / 10 < 10 ^ k' := by
        have : n < 10 * 10 ^ k' := by
          calc n < 10 ^ (k' + 1) := h
          _ = 10 * 10 ^ k' := by ring
        omega
      simp only [natDecDigits, hn, if_false, List.length_cons]
      have := ih (n / 10) k' hdiv
      omega

theorem valFrom_reverse_natDecDigits (fuel n : Nat) (h : n < 10 ^ fuel) :
    valFrom 0 (natDecDigits fuel n).reverse = n := by
  induction fuel generalizing n with
  | zero =>
    simp only [pow_zero] at h
    interval_cases n
    simp [natDecDigits, valFrom_nil]
  | succ fuel ih =>
    by_cases hn : n = 0
    · simp [natDecDigits, hn, valFrom_nil]
    · have hdiv : n / 10 < 10 ^ fuel := by
        have : n < 10 * 10 ^ fuel := by
          calc n < 10 ^ (fuel + 1) := h
          _ = 10 * 10 ^ fuel := by ring
        omega
      simp only [natDecDigits, hn, if_false, List.reverse_cons]
      rw [valFrom_append, ih (n / 10) hdiv]
      rw [valFrom_cons, valFrom_nil]
      omega

theorem natDec_mem (n : Nat) : ∀ d ∈ natDec n, 48 ≤ d ∧ d ≤ 57 := by
  unfold natDec
  by_cases hn : n = 0
  · simp [hn]
  · simp only [hn, if_false, List.mem_reverse]
    exact natDecDigits_mem 64 n

theorem natDecDigits_ne_nil (fuel n : Nat) (hn : n ≠ 0) :
    natDecDigits (fuel + 1) n ≠ [] := by
  simp [natDecDigits, hn]

theorem natDec_ne_nil (n : Nat) : natDec n ≠ [] := by
  unfold natDec
  by_cases hn : n = 0
  · simp [hn]
  · simp only [hn, if_false, ne_eq, List.reverse_eq_nil_iff]
    exact natDecDigits_ne_nil 63 n hn

theorem natDec_val (n : Nat) (h : n < 10 ^ 64) : valFrom 0 (natDec n) = n := by
  unfold natDec
  by_cases hn : n = 0
  · simp [hn, valFrom_cons, valFrom_nil]
  · simp only [hn, if_false]
    exact valFrom_reverse_natDecDigits 64 n h

theorem natDec_length_le (n k : Nat) (h : n < 10 ^ k) (hk : 1 ≤ k) :
    (natDec n).length ≤ k := by
  unfold natDec
  by_cases hn : n = 0
  · simpa [hn] using hk
  · simp only [hn, if_false, List.length_reverse]
    exact natDecDigits_length_le 64 n k h

theorem wrap64_eq_self (x : Int) (hlo : -(2 ^ 63) ≤ x) (hhi : x < 2 ^ 63) :
    wrap64 x = x := by
  unfold wrap64
  omega

theorem parseIntLoop_digits (l : List Nat) (acc : Nat)
    (hd : ∀ d ∈ l, 48 ≤ d ∧ d ≤ 57) (hb : valFrom acc l < 2 ^ 63) :
    parseIntLoop l (acc : Int) = some ((valFrom acc l : Nat) : Int) := by
  induction l generalizing acc with
  | nil => simp [parseIntLoop, valFrom_nil]
  | cons ch rest ih =>
    obtain ⟨h48, h57⟩ := hd ch (by simp)
    have hdval : (ch + 256 - 48) % 256 = ch - 48 := by omega
    have hd9 : ¬ 9 < ch - 48 := by omega
    have hb' : valFrom (acc * 10 + (ch - 48)) rest < 2 ^ 63 := by
      rw [valFrom_cons] at hb
      exact hb
    have hle : acc * 10 + (ch - 48) ≤ valFrom (acc * 10 + (ch - 48)) rest :=
      valFrom_ge _ _
    have hwrap : wrap64 ((acc : Int) * 10 + ((ch - 48 : Nat) : Int)) =
        ((acc * 10 + (ch - 48) : Nat) : Int) := by
      have hx : ((acc * 10 + (ch - 48) : Nat) : Int) < 2 ^ 63 := by
        exact_mod_cast lt_of_le_of_lt hle hb'
      have hx0 : (0 : Int) ≤ ((acc * 10 + (ch - 48) : Nat) : Int) := by positivity
      rw [show (acc : Int) * 10 + ((ch - 48 : Nat) : Int) =
        ((acc * 10 + (ch - 48) : Nat) : Int) by push_cast; ring]
      exact wrap64_eq_self _ (by omega) hx
    simp only [parseIntLoop, hdval, hd9, if_false]
    rw [hwrap, ih (acc * 10 + (ch - 48)) (fun d hdm => hd d (by simp [hdm])) hb']
    rw [valFrom_cons]

theorem parseInt_natDec (n : Nat) (h : n < 2 ^ 63) : parseInt (natDec n) = some (n : Int) := by
  have hloop : parseIntLoop (natDec n) ((0 : Nat) : Int) = some ((valFrom 0 (natDec n) : Nat) : Int) :=
    parseIntLoop_digits (natDec n) 0 (natDec_mem n) (by
      rw [natDec_val n (lt_trans h (by norm_num))]
      exact h)
  rw [natDec_val n (lt_trans h (by norm_num))] at hloop
  obtain ⟨b0, rest, hcons⟩ : ∃ b0 rest, natDec n = b0 :: rest := by
    cases hd : natDec n with
    | nil => exact absurd hd (natDec_ne_nil n)
    | cons b0 rest => exact ⟨b0, rest, rfl⟩
  have hb0 : 48 ≤ b0 := (natDec_mem n b0 (by rw [hcons]; simp)).1
  have hb045 : ¬ b0 = 45 := by omega
  rw [hcons] at hloop ⊢
  simp only [parseInt, hb045, if_false]
  rw [show ((0 : Nat) : Int) = (0 : Int) by norm_num] at hloop
  rw [hloop]

theorem parseInt_neg_cons (rest : List Nat) :
    parseInt (45 :: rest) =
      match parseIntLoop rest 0 with
      | none => none
      | some n => some (wrap64 (-1 * n)) := by
  have h1 : ¬ (45 :: rest).length < 1 := by simp
  simp [parseInt, h1]

set_option maxRecDepth 40000 in
theorem parseInt_intDec (i : Int) (hlo : -(2 ^ 63) ≤ i) (hhi : i < 2 ^ 63) :
    parseInt (intDec i) = some i := by
  by_cases hneg : i < 0
  · rcases eq_or_lt_of_le hlo with heq | hlt
    · rw [← heq]
      norm_num
      rfl
    · have hm : i.natAbs < 2 ^ 63 := by omega
      simp only [intDec, hneg, if_true]
      have hloop : parseIntLoop (natDec i.natAbs) ((0 : Nat) : Int) =
          some ((valFrom 0 (natDec i.natAbs) : Nat) : Int) :=
        parseIntLoop_digits _ 0 (natDec_mem _) (by
          rw [natDec_val _ (lt_trans hm (by norm_num))]
          exact hm)
      rw [natDec_val _ (lt_trans hm (by norm_num))] at hloop
      rw [show ((0 : Nat) : Int) = (0 : Int) by norm_num] at hloop
      rw [parseInt_neg_cons, hloop]
      have hw : wrap64 (-1 * (i.natAbs : Int)) = i := by
        have he : (-1 : Int) * (i.natAbs : Int) = i := by omega
        rw [he]
        exact wrap64_eq_self i hlo hhi
      show some (wrap64 (-1 * (i.natAbs : Int))) = some i
      rw [hw]
  · have h0 : (0 : Int) ≤ i := by omega
    have ht : (i.toNat : Int) = i := Int.toNat_of_nonneg h0
    simp only [intDec, hneg, if_false]
    rw [parseInt_natDec i.toNat (by omega), ht]

theorem natDec_small (d : Nat) (h : d ≤ 9) : natDec d = [d + 48] := by
  interval_cases d <;> decide

theorem writeInt_eq_intDec (i : Int) : writeInt i = intDec i := by
  unfold writeInt
  by_cases h : 0 ≤ i ∧ i ≤ 9
  · obtain ⟨h0, h9⟩ := h
    have hni : ¬ i < 0 := by omega
    have htoNat : i.toNat ≤ 9 := by omega
    simp only [h0, h9, and_self, if_true, intDec, hni, if_false]
    rw [natDec_small i.toNat htoNat]
    simp [Nat.add_comm]
  · simp [h]

/-! ## Success of the reader on writer-produced input

The key lemmas state that each read operation, run on the bytes the writer
emitted for a value followed by an arbitrary suffix, consumes exactly those
bytes and returns the value (the `Comparse`-style parse/serialize
inversion). -/

theorem readSlice_line (bufSize dt : Nat) (d suffix : List Nat)
    (h10 : ∀ b ∈ d, b ≠ 10) (hdt : dt ≠ 10) (hsz : d.length + 3 ≤ bufSize) :
    readSlice bufSize (dt :: d ++ [13, 10] ++ suffix) =
      (.ok (dt :: d ++ [13, 10]), suffix) := by
  have hsplit : dt :: d ++ [13, 10] ++ suffix = (dt :: d ++ [13]) ++ 10 :: suffix := by simp
  have hpre : ∀ b ∈ dt :: d ++ [13], b ≠ 10 := by
    intro b hb
    rcases List.mem_cons.mp hb with rfl | hb'
    · exact hdt
    · rcases List.mem_append.mp hb' with h | h
      · exact h10 b h
      · simp only [List.mem_singleton] at h
        omega
  have hfind : findLF (dt :: d ++ [13, 10] ++ suffix) = some (d.length + 2) := by
    rw [hsplit, findLF_append_no _ _ hpre]
    simp
  have hsplit2 : dt :: d ++ [13, 10] ++ suffix = (dt :: d ++ [13, 10]) ++ suffix := by simp
  have hlen : (dt :: d ++ [13, 10]).length = d.length + 2 + 1 := by simp
  have htake : (dt :: d ++ [13, 10] ++ suffix).take (d.length + 2 + 1) = dt :: d ++ [13, 10] := by
    rw [hsplit2, ← hlen]
    exact take_append_self _ _
  have hdrop : (dt :: d ++ [13, 10] ++ suffix).drop (d.length + 2 + 1) = suffix := by
    rw [hsplit2, ← hlen]
    exact drop_append_self _ _
  have hle : d.length + 2 + 1 ≤ bufSize := by omega
  unfold readSlice
  rw [hfind]
  simp only [hle, if_true, htake, hdrop]

theorem readLineLoop_line (bufSize limit fuel len0 dt : Nat) (d suffix raw0 : List Nat)
    (h10 : ∀ b ∈ d, b ≠ 10) (hdt : dt ≠ 10) (hsz : d.length + 3 ≤ bufSize)
    (hcond : limit = 0 ∨ len0 < limit) :
    readLineLoop bufSize limit (fuel + 1) len0 ⟨dt :: d ++ [13, 10] ++ suffix, raw0⟩ =
      .ok ⟨suffix, raw0 ++ (dt :: d ++ [13, 10])⟩ := by
  have hfraglen : (dt :: d ++ [13, 10]).length = d.length + 3 := by simp
  have hgetD : (dt :: d ++ [13, 10]).getD ((dt :: d ++ [13, 10]).length - 2) 0 = 13 := by
    have hre : dt :: d ++ [13, 10] = (dt :: d) ++ [13, 10] := by simp
    have hi : (dt :: d ++ [13, 10]).length - 2 = (dt :: d).length + 0 := by
      rw [hfraglen]
      simp
    rw [hi, hre, getD_append_right]
    rfl
  have hnotbranch : ¬ ((dt :: d ++ [13, 10]).length < 2 ∨
      (dt :: d ++ [13, 10]).getD ((dt :: d ++ [13, 10]).length - 2) 0 ≠ 13) := by
    push_neg
    constructor
    · rw [hfraglen]; omega
    · exact hgetD
  unfold readLineLoop
  rw [if_pos hcond, readSlice_line bufSize dt d suffix h10 hdt hsz]
  simp only [hnotbranch, if_false]

theorem readLine_write (bufSize dt limit : Nat) (d suffix raw0 : List Nat)
    (h10 : ∀ b ∈ d, b ≠ 10) (hdt : dt ≠ 10) (hsz : d.length + 3 ≤ bufSize) :
    readLine bufSize dt limit ⟨dt :: d ++ [13, 10] ++ suffix, raw0⟩ =
      .ok (d, ⟨suffix, raw0 ++ (dt :: d ++ [13, 10])⟩) := by
  have hcond : limit = 0 ∨ 0 < limit := Nat.eq_zero_or_pos limit
  unfold readLine
  rw [readLineLoop_line bufSize limit _ 0 dt d suffix raw0 h10 hdt hsz hcond]
  have hterm : hasTerminator (raw0 ++ (dt :: d ++ [13, 10])) = true := by
    have : raw0 ++ (dt :: d ++ [13, 10]) = (raw0 ++ dt :: d) ++ [13, 10] := by simp
    rw [this]
    exact hasTerminator_append_crlf _
  have hch : (raw0 ++ (dt :: d ++ [13, 10])).getD raw0.length 0 = dt := by
    have := getD_append_right raw0 (dt :: d ++ [13, 10]) 0 0
    simpa using this
  have hlen : (raw0 ++ (dt :: d ++ [13, 10])).length = raw0.length + d.length + 3 := by
    simp; omega
  have htake : (raw0 ++ (dt :: d ++ [13, 10])).take
      ((raw0 ++ (dt :: d ++ [13, 10])).length - 2) = raw0 ++ dt :: d := by
    have hre : raw0 ++ (dt :: d ++ [13, 10]) = (raw0 ++ dt :: d) ++ [13, 10] := by simp
    have hi : (raw0 ++ (dt :: d ++ [13, 10])).length - 2 = (raw0 ++ dt :: d).length := by
      rw [hlen]; simp; omega
    rw [hi, hre]
    exact take_append_self _ _
  have hdrop : (raw0 ++ dt :: d).drop (raw0.length + 1) = d := by
    have hre : raw0 ++ dt :: d = (raw0 ++ [dt]) ++ d := by simp
    have hi : raw0.length + 1 = (raw0 ++ [dt]).length := by simp
    rw [hre, hi]
    exact drop_append_self _ _
  simp only [hterm, hch, htake, hdrop, if_false]
  simp [hch, htake, hdrop]

theorem readValue_write (bufSize dt : Nat) (d suffix raw0 : List Nat) (n : Int)
    (h10 : ∀ b ∈ d, b ≠ 10) (hdt : dt ≠ 10) (hsz : d.length + 3 ≤ bufSize)
    (hp : parseInt d = some n) :
    readValue bufSize dt ⟨dt :: d ++ [13, 10] ++ suffix, raw0⟩ =
      .ok (n, ⟨suffix, raw0 ++ (dt :: d ++ [13, 10])⟩) := by
  unfold readValue
  rw [readLine_write bufSize dt 23 d suffix raw0 h10 hdt hsz]
  simp [hp]

theorem readFull_zero (fuel : Nat) (st : RState) (h : 0 < fuel) :
    readFull fuel 0 st = .ok st := by
  cases fuel with
  | zero => omega
  | succ f =>
    unfold readFull
    norm_num

theorem readFull_exact (k : Nat) (c suffix raw0 : List Nat)
    (hc : c.length = k) (hk : 0 < k) :
    readFull (k + 1) (k : Int) ⟨c ++ suffix, raw0⟩ = .ok ⟨suffix, raw0 ++ c⟩ := by
  have hkpos : (0 : Int) < (k : Int) := by exact_mod_cast hk
  have hne : ¬ (c ++ suffix).isEmpty = true := by
    have hcne : c ≠ [] := by
      intro h
      rw [h] at hc
      simp at hc
      omega
    cases c with
    | nil => exact absurd rfl hcne
    | cons a l => simp
  have ht : min ((k : Int)).toNat (c ++ suffix).length = k := by
    have h1 : ((k : Int)).toNat = k := by simp
    have h2 : k ≤ (c ++ suffix).length := by
      simp only [List.length_append]
      omega
    omega
  have hdrop : (c ++ suffix).drop k = suffix := by
    rw [← hc]
    exact drop_append_self _ _
  have htake : (c ++ suffix).take k = c := by
    rw [← hc]
    exact take_append_self _ _
  unfold readFull
  rw [if_pos hkpos]
  simp only [hne, Bool.false_eq_true, if_false, ht, hdrop, htake]
  have hz : (k : Int) - ((k : Nat) : Int) = 0 := by ring
  rw [hz]
  exact readFull_zero k _ hk

theorem readBulk_write (bufSize : Nat) (s suffix raw0 : List Nat)
    (hlen : s.length < 2 ^ 63) (hbuf : 23 ≤ bufSize) :
    readBulk bufSize ⟨WriteString s ++ suffix, raw0⟩ =
      .ok (some s, ⟨suffix, raw0 ++ WriteString s⟩) := by
  set d := natDec s.length with hd
  have hwI : writeInt (s.length : Int) = d := by
    rw [writeInt_eq_intDec]
    simp [intDec, hd]
  have hmem := natDec_mem s.length
  have h10 : ∀ b ∈ d, b ≠ 10 := by
    intro b hb
    have := hmem b hb
    omega
  have hdlen : d.length ≤ 19 := by
    apply natDec_length_le s.length 19 _ (by norm_num)
    calc s.length < 2 ^ 63 := hlen
    _ < 10 ^ 19 := by norm_num
  have hsz : d.length + 3 ≤ bufSize := by omega
  have hp : parseInt d = some (s.length : Int) := parseInt_natDec s.length hlen
  have hshape : WriteString s ++ suffix =
      DataTypeBulkString :: d ++ [13, 10] ++ ((s ++ [13, 10]) ++ suffix) := by
    simp [WriteString, writePrefix, writeTerminator, hwI]
  unfold readBulk
  rw [hshape, readValue_write bufSize DataTypeBulkString d ((s ++ [13, 10]) ++ suffix)
    raw0 (s.length : Int) h10 (by norm_num [DataTypeBulkString]) hsz hp]
  have hnneg : ¬ ((s.length : Int) < 0) := by omega
  simp only [hnneg, if_false]
  have hcast : (s.length : Int) + 2 = ((s.length + 2 : Nat) : Int) := by push_cast; ring
  have htoNat : ((s.length : Int) + 2).toNat = s.length + 2 := by omega
  have hclen : (s ++ [13, 10]).length = s.length + 2 := by simp
  rw [htoNat, hcast, readFull_exact (s.length + 2) (s ++ [13, 10]) suffix _ hclen (by omega)]
  set raw1 := raw0 ++ (DataTypeBulkString :: d ++ [13, 10]) with hraw1
  have hterm : hasTerminator (raw1 ++ (s ++ [13, 10])) = true := by
    have : raw1 ++ (s ++ [13, 10]) = (raw1 ++ s) ++ [13, 10] := by simp
    rw [this]
    exact hasTerminator_append_crlf _
  simp only [hterm, if_false]
  have htake : (raw1 ++ (s ++ [13, 10])).take ((raw1 ++ (s ++ [13, 10])).length - 2) =
      raw1 ++ s := by
    have hre : raw1 ++ (s ++ [13, 10]) = (raw1 ++ s) ++ [13, 10] := by simp
    have hi : (raw1 ++ (s ++ [13, 10])).length - 2 = (raw1 ++ s).length := by
      simp only [List.length_append, List.length_cons, List.length_nil]
      omega
    rw [hi, hre]
    exact take_append_self _ _
  have hdrop2 : (raw1 ++ s).drop raw1.length = s := drop_append_self _ _
  simp only [htake, hdrop2]
  have hfinal : raw1 ++ (s ++ [13, 10]) = raw0 ++ WriteString s := by
    rw [hraw1]
    simp [WriteString, writePrefix, writeTerminator, hwI]
  rw [hfinal]
  simp

theorem readElems_write (bufSize : Nat) (args : List (List Nat)) (suffix raw0 : List Nat)
    (hargs : ∀ a ∈ args, a.length < 2 ^ 63) (hbuf : 23 ≤ bufSize) :
    readElems bufSize args.length ⟨args.flatMap WriteString ++ suffix, raw0⟩ =
      .ok (args, ⟨suffix, raw0 ++ args.flatMap WriteString⟩) := by
  induction args generalizing raw0 with
  | nil => simp [readElems]
  | cons a rest ih =>
    have hshape : (a :: rest).flatMap WriteString ++ suffix =
        WriteString a ++ (rest.flatMap WriteString ++ suffix) := by simp
    have hb := readBulk_write bufSize a (rest.flatMap WriteString ++ suffix) raw0
      (hargs a (by simp)) hbuf
    show readElems bufSize (rest.length + 1) _ = _
    unfold readElems
    rw [hshape]
    simp only [hb, ih (raw0 ++ WriteString a) fun x hx => hargs x (by simp [hx])]
    simp

theorem readCommandLoop_write (bufSize fuel : Nat) (args : List (List Nat)) (suffix : List Nat)
    (hne : args ≠ []) (hn : args.length < 2 ^ 63)
    (hargs : ∀ a ∈ args, a.length < 2 ^ 63) (hbuf : 23 ≤ bufSize) :
    readCommandLoop bufSize (fuel + 1)
        (WriteArray (args.length : Int) ++ args.flatMap WriteString ++ suffix) =
      .ok ⟨WriteArray (args.length : Int) ++ args.flatMap WriteString, args⟩ := by
  set d := natDec args.length with hd
  have hwI : writeInt (args.length : Int) = d := by
    rw [writeInt_eq_intDec]
    simp [intDec, hd]
  have hmem := natDec_mem args.length
  have h10 : ∀ b ∈ d, b ≠ 10 := by
    intro b hb
    have := hmem b hb
    omega
  have hdlen : d.length ≤ 19 := by
    apply natDec_length_le args.length 19 _ (by norm_num)
    calc args.length < 2 ^ 63 := hn
    _ < 10 ^ 19 := by norm_num
  have hsz : d.length + 3 ≤ bufSize := by omega
  have hp : parseInt d = some (args.length : Int) := parseInt_natDec args.length hn
  have hshape : WriteArray (args.length : Int) ++ args.flatMap WriteString ++ suffix =
      DataTypeArray :: d ++ [13, 10] ++ (args.flatMap WriteString ++ suffix) := by
    simp [WriteArray, writePrefix, writeTerminator, hwI]
  unfold readCommandLoop
  rw [hshape, readValue_write bufSize DataTypeArray d (args.flatMap WriteString ++ suffix)
    [] (args.length : Int) h10 (by norm_num [DataTypeArray]) hsz hp]
  have hpos : ¬ ((args.length : Int) ≤ 0) := by
    have : args.length ≠ 0 := by simpa using hne
    omega
  simp only [hpos, if_false]
  have htoNat : ((args.length : Int)).toNat = args.length := by simp
  have helems := readElems_write bufSize args suffix
    ([] ++ (DataTypeArray :: d ++ [13, 10])) hargs hbuf
  rw [htoNat, helems]
  have hraw : ([] ++ (DataTypeArray :: d ++ [13, 10])) ++ args.flatMap WriteString =
      WriteArray (args.length : Int) ++ args.flatMap WriteString := by
    simp [WriteArray, writePrefix, writeTerminator, hwI]
  simp only [hraw]

theorem ReadCommand_write (bufSize : Nat) (args : List (List Nat))
    (hne : args ≠ []) (hn : args.length < 2 ^ 63)
    (hargs : ∀ a ∈ args, a.length < 2 ^ 63) (hbuf : 23 ≤ bufSize) :
    ReadCommand bufSize (WriteArray (args.length : Int) ++ args.flatMap WriteString) =
      (some ⟨WriteArray (args.length : Int) ++ args.flatMap WriteString, args⟩, none, false) := by
  unfold ReadCommand
  have h := readCommandLoop_write bufSize
    (WriteArray (args.length : Int) ++ args.flatMap WriteString).length args []
    hne hn hargs hbuf
  rw [List.append_nil] at h
  rw [h]

theorem ReadString_write (bufSize : Nat) (s : List Nat)
    (hlen : s.length < 2 ^ 63) (hbuf : 23 ≤ bufSize) :
    ReadString bufSize (WriteString s) = .ok (s, false) := by
  unfold ReadString
  have h := readBulk_write bufSize s [] [] hlen hbuf
  rw [List.append_nil] at h
  rw [h]

theorem ReadInteger_write (bufSize : Nat) (i : Int)
    (hlo : -(2 ^ 63) ≤ i) (hhi : i < 2 ^ 63) (hbuf : 23 ≤ bufSize) :
    ReadInteger bufSize (WriteInt64 i) = .ok i := by
  set d := intDec i with hd
  have h10 : ∀ b ∈ d, b ≠ 10 := by
    intro b hb
    rw [hd] at hb
    unfold intDec at hb
    by_cases hneg : i < 0
    · simp only [hneg, if_true, List.mem_cons] at hb
      rcases hb with rfl | hb
      · omega
      · have := natDec_mem i.natAbs b hb
        omega
    · simp only [hneg, if_false] at hb
      have := natDec_mem i.toNat b hb
      omega
  have habs : i.natAbs < 2 ^ 63 ∨ i.natAbs = 2 ^ 63 := by omega
  have hdlen : d.length ≤ 20 := by
    rw [hd]
    unfold intDec
    by_cases hneg : i < 0
    · simp only [hneg, if_true, List.length_cons]
      have : (natDec i.natAbs).length ≤ 19 := by
        apply natDec_length_le i.natAbs 19 _ (by norm_num)
        rcases habs with h | h
        · calc i.natAbs < 2 ^ 63 := h
          _ < 10 ^ 19 := by norm_num
        · rw [h]
          norm_num
      omega
    · simp only [hneg, if_false]
      apply le_trans (natDec_length_le i.toNat 19 _ (by norm_num)) (by norm_num)
      have : i.toNat < 2 ^ 63 := by omega
      calc i.toNat < 2 ^ 63 := this
      _ < 10 ^ 19 := by norm_num
  have hsz : d.length + 3 ≤ bufSize := by omega
  have hp : parseInt d = some i := parseInt_intDec i hlo hhi
  have hshape : WriteInt64 i = DataTypeInteger :: d ++ [13, 10] ++ [] := by
    simp [WriteInt64, writeTerminator, writeInt_eq_intDec, hd]
  unfold ReadInteger
  rw [hshape, readValue_write bufSize DataTypeInteger d [] [] i h10
    (by norm_num [DataTypeInteger]) hsz hp]

/-! ## The escaping law -/

/-- A single byte under the CR/LF escaping rule (claim-side formulation):
CR becomes backslash-r, LF becomes backslash-n, everything else is kept. -/
def escapeByte (ch : Nat) : List Nat :=
  if ch = 13 then [92, 114] else if ch = 10 then [92, 110] else [ch]

/-- The claim-side escaping of a payload, byte by byte. -/
def escapeCRLF (s : List Nat) : List Nat := s.flatMap escapeByte

theorem writeEscapedString_eq (s : List Nat) : writeEscapedString s = escapeCRLF s := rfl

theorem escapeCRLF_of_clean (s : List Nat) (h : ∀ b ∈ s, b ≠ 13 ∧ b ≠ 10) :
    escapeCRLF s = s := by
  induction s with
  | nil => rfl
  | cons a l ih =>
    have ha := h a (by simp)
    simp only [escapeCRLF, List.flatMap_cons] at *
    rw [ih fun b hb => h b (by simp [hb])]
    simp [escapeByte, ha.1, ha.2]

theorem containsCRLF_eq_false (s : List Nat) :
    containsCRLF s = false ↔ ∀ b ∈ s, b ≠ 13 ∧ b ≠ 10 := by
  unfold containsCRLF
  rw [List.any_eq_false]
  constructor
  · intro h b hb
    have hh := h b hb
    simp only [Bool.or_eq_true, beq_iff_eq] at hh
    push_neg at hh
    exact hh
  · intro h b hb
    have hh := h b hb
    simp only [Bool.or_eq_true, beq_iff_eq]
    push_neg
    exact hh

theorem writeString_eq_escape (s : List Nat) : writeString s = escapeCRLF s := by
  unfold writeString
  by_cases h : containsCRLF s
  · rw [if_pos h]
    exact writeEscapedString_eq s
  · rw [if_neg h]
    exact (escapeCRLF_of_clean s ((containsCRLF_eq_false s).mp (by simpa using h))).symm

theorem writeString_clean (s : List Nat) (h : ∀ b ∈ s, b ≠ 13 ∧ b ≠ 10) :
    writeString s = s := by
  rw [writeString_eq_escape]
  exact escapeCRLF_of_clean s h

theorem escapeCRLF_no_crlf (s : List Nat) : ∀ b ∈ escapeCRLF s, b ≠ 13 ∧ b ≠ 10 := by
  induction s with
  | nil => simp [escapeCRLF]
  | cons a l ih =>
    intro b hb
    simp only [escapeCRLF, List.flatMap_cons, List.mem_append] at hb
    rcases hb with hb | hb
    · unfold escapeByte at hb
      by_cases h13 : a = 13
      · simp [h13] at hb
        rcases hb with rfl | rfl <;> omega
      · by_cases h10 : a = 10
        · simp [h13, h10] at hb
          rcases hb with rfl | rfl <;> omega
        · simp [h13, h10] at hb
          omega
    · exact ih b hb

theorem ReadSimpleString_write (bufSize : Nat) (s : List Nat)
    (hclean : ∀ b ∈ s, b ≠ 13 ∧ b ≠ 10) (hsz : s.length + 3 ≤ bufSize) :
    ReadSimpleString bufSize (WriteSimpleString s) = .ok s := by
  have hshape : WriteSimpleString s = DataTypeSimpleString :: s ++ [13, 10] ++ [] := by
    simp [WriteSimpleString, writeTerminator, writeString_clean s hclean]
  unfold ReadSimpleString
  rw [hshape, readLine_write bufSize DataTypeSimpleString 0 s [] []
    (fun b hb => (hclean b hb).2) (by norm_num [DataTypeSimpleString]) hsz]

/-! ## Empty-array skipping -/

theorem readCommandLoop_mono (bufSize : Nat) (fuel : Nat) :
    ∀ fuel' input cmd, fuel ≤ fuel' →
      readCommandLoop bufSize fuel input = .ok cmd →
      readCommandLoop bufSize fuel' input = .ok cmd := by
  induction fuel with
  | zero =>
    intro fuel' input cmd _ h
    simp [readCommandLoop] at h
  | succ f ih =>
    intro fuel' input cmd hle h
    obtain ⟨f', rfl⟩ : ∃ f', fuel' = f' + 1 := ⟨fuel' - 1, by omega⟩
    unfold readCommandLoop at h ⊢
    cases hv : readValue bufSize DataTypeArray ⟨input, []⟩ with
    | error e =>
      rw [hv] at h
      have h' : (Except.error (if e = RErr.errValue then ErrMultibulkLength else e) :
          Except RErr Command) = .ok cmd := h
      exact absurd h' (by simp)
    | ok p =>
      obtain ⟨n, st⟩ := p
      rw [hv] at h
      have h' : (if n ≤ 0 then readCommandLoop bufSize f st.input
          else match readElems bufSize n.toNat st with
            | .error e => .error e
            | .ok (args, st') => .ok (⟨st'.raw, args⟩ : Command)) = .ok cmd := h
      show (if n ≤ 0 then readCommandLoop bufSize f' st.input
          else match readElems bufSize n.toNat st with
            | .error e => .error e
            | .ok (args, st') => .ok (⟨st'.raw, args⟩ : Command)) = .ok cmd
      by_cases hn : n ≤ 0
      · rw [if_pos hn] at h' ⊢
        exact ih f' st.input cmd (by omega) h'
      · rw [if_neg hn] at h' ⊢
        exact h' 

theorem readCommandLoop_skip (bufSize fuel : Nat) (d rest : List Nat) (v : Int)
    (h10 : ∀ b ∈ d, b ≠ 10) (hsz : d.length + 3 ≤ bufSize)
    (hp : parseInt d = some v) (hv : v ≤ 0) :
    readCommandLoop bufSize (fuel + 1) ((DataTypeArray :: d ++ [13, 10]) ++ rest) =
      readCommandLoop bufSize fuel rest := by
  have hshape : (DataTypeArray :: d ++ [13, 10]) ++ rest =
      DataTypeArray :: d ++ [13, 10] ++ rest := by simp
  have hval := readValue_write bufSize DataTypeArray d rest [] v h10
    (by norm_num [DataTypeArray]) hsz hp
  have key : readCommandLoop bufSize (fuel + 1) ((DataTypeArray :: d ++ [13, 10]) ++ rest) =
      match readValue bufSize DataTypeArray ⟨(DataTypeArray :: d ++ [13, 10]) ++ rest, []⟩ with
      | .error e => .error (if e = RErr.errValue then ErrMultibulkLength else e)
      | .ok (arrayLength, st) =>
        if arrayLength ≤ 0 then readCommandLoop bufSize fuel st.input
        else
          match readElems bufSize arrayLength.toNat st with
          | .error e => .error e
          | .ok (args, st') => .ok ⟨st'.raw, args⟩ := rfl
  rw [key, hshape, hval]
  show (if v ≤ 0 then readCommandLoop bufSize fuel rest
      else match readElems bufSize v.toNat ⟨rest, [] ++ (DataTypeArray :: d ++ [13, 10])⟩ with
        | .error e => .error e
        | .ok (args, st') => .ok (⟨st'.raw, args⟩ : Command)) =
    readCommandLoop bufSize fuel rest
  rw [if_pos hv]

theorem readCommandLoop_skip_headers (bufSize : Nat) (ds : List (List Nat))
    (rest : List Nat) (cmd : Command)
    (hds : ∀ d ∈ ds, (∀ b ∈ d, b ≠ 10) ∧ d.length + 3 ≤ bufSize ∧
      ∃ v, parseInt d = some v ∧ v ≤ 0)
    (hloop : readCommandLoop bufSize (rest.length + 1) rest = .ok cmd) :
    readCommandLoop bufSize
        (((ds.map fun d => DataTypeArray :: d ++ [13, 10]).flatten ++ rest).length + 1)
        ((ds.map fun d => DataTypeArray :: d ++ [13, 10]).flatten ++ rest) = .ok cmd := by
  induction ds with
  | nil => simpa using hloop
  | cons d ds' ih =>
    obtain ⟨h10, hsz, v, hp, hv⟩ := hds d (by simp)
    have ihres := ih fun x hx => hds x (by simp [hx])
    set rest' := (ds'.map fun d => DataTypeArray :: d ++ [13, 10]).flatten ++ rest with hrest'
    have hshape : ((d :: ds').map fun d => DataTypeArray :: d ++ [13, 10]).flatten ++ rest =
        (DataTypeArray :: d ++ [13, 10]) ++ rest' := by
      simp [hrest']
    rw [hshape]
    have hlen : ((DataTypeArray :: d ++ [13, 10]) ++ rest').length =
        (d.length + 3) + rest'.length := by
      simp
      omega
    rw [hlen]
    rw [readCommandLoop_skip bufSize ((d.length + 3) + rest'.length) d rest' v h10 hsz hp hv]
    exact readCommandLoop_mono bufSize (rest'.length + 1) _ rest' cmd (by omega) ihres

theorem ReadCommand_skip_headers (bufSize : Nat) (ds : List (List Nat))
    (rest : List Nat) (cmd : Command)
    (hds : ∀ d ∈ ds, (∀ b ∈ d, b ≠ 10) ∧ d.length + 3 ≤ bufSize ∧
      ∃ v, parseInt d = some v ∧ v ≤ 0)
    (hrest : ReadCommand bufSize rest = (some cmd, none, false)) :
    ReadCommand bufSize
        ((ds.map fun d => DataTypeArray :: d ++ [13, 10]).flatten ++ rest) =
      (some cmd, none, false) := by
  unfold ReadCommand at hrest ⊢
  cases hcl : readCommandLoop bufSize (rest.length + 1) rest with
  | error e =>
    rw [hcl] at hrest
    simp at hrest
  | ok c =>
    rw [hcl] at hrest
    simp only [Prod.mk.injEq, Option.some.injEq] at hrest
    obtain ⟨rfl, -⟩ := hrest
    rw [readCommandLoop_skip_headers bufSize ds rest c hds hcl]

/-! ## Over-long length lines (the 23-byte limit) -/

theorem readSlice_full (bufSize : Nat) (input : List Nat)
    (hlen : bufSize ≤ input.length) (h10 : ∀ b ∈ input.take bufSize, b ≠ 10) :
    readSlice bufSize input = (.bufferFull (input.take bufSize), input.drop bufSize) := by
  unfold readSlice
  cases hf : findLF input with
  | none => simp only [hlen, if_true]
  | some idx =>
    have hge : bufSize ≤ idx := findLF_ge input bufSize idx h10 hf
    have hn : ¬ (idx + 1 ≤ bufSize) := by omega
    simp only [hn, if_false]

theorem hasTerminator_false_of_no10 (l : List Nat) (h : ∀ b ∈ l, b ≠ 10) :
    hasTerminator l = false := by
  have := getD_ne_ten l (l.length - 1) h
  simp only [hasTerminator, Bool.and_eq_false_iff, beq_eq_false_iff_ne, ne_eq]
  tauto

theorem readLineLoop_full (bufSize limit f : Nat) (input raw0 : List Nat)
    (hlen : bufSize ≤ input.length) (h10 : ∀ b ∈ input.take bufSize, b ≠ 10)
    (hlim : 1 ≤ limit) (hlimbuf : limit ≤ bufSize) :
    readLineLoop bufSize limit (f + 1 + 1) 0 ⟨input, raw0⟩ =
      .ok ⟨input.drop bufSize, raw0 ++ input.take bufSize⟩ := by
  have hcond : limit = 0 ∨ 0 < limit := Or.inr (by omega)
  have htakelen : (input.take bufSize).length = bufSize := by
    rw [List.length_take]
    omega
  have hcond2 : ¬ (limit = 0 ∨ 0 + (input.take bufSize).length < limit) := by
    push_neg
    rw [htakelen]
    omega
  unfold readLineLoop
  rw [if_pos hcond, readSlice_full bufSize input hlen h10]
  show readLineLoop bufSize limit (f + 1) (0 + (input.take bufSize).length) _ = _
  unfold readLineLoop
  rw [if_neg hcond2]

theorem readLine_full (bufSize dt limit : Nat) (input : List Nat)
    (hlen : bufSize ≤ input.length) (h10 : ∀ b ∈ input.take bufSize, b ≠ 10)
    (hlim : 1 ≤ limit) (hlimbuf : limit ≤ bufSize) :
    readLine bufSize dt limit ⟨input, []⟩ = .error .errLineLimitExceeded := by
  obtain ⟨f, hf⟩ : ∃ f, input.length + 1 = f + 1 + 1 := ⟨input.length - 1, by omega⟩
  have hloop := readLineLoop_full bufSize limit f input [] hlen h10 hlim hlimbuf
  have hterm : hasTerminator (([] : List Nat) ++ input.take bufSize) = false := by
    rw [List.nil_append]
    exact hasTerminator_false_of_no10 _ h10
  unfold readLine
  rw [show (RState.mk input ([] : List Nat)).input = input from rfl, hf, hloop]
  simp only [hterm, if_true]

theorem readValue_overlong (bufSize dt : Nat) (input : List Nat)
    (hbuf : 23 ≤ bufSize) (hlen : bufSize ≤ input.length)
    (h10 : ∀ b ∈ input.take bufSize, b ≠ 10) :
    readValue bufSize dt ⟨input, []⟩ = .error .errValue := by
  unfold readValue
  rw [readLine_full bufSize dt 23 input hlen h10 (by omega) hbuf]
  simp

theorem ReadCommand_overlong (bufSize : Nat) (input : List Nat)
    (hbuf : 23 ≤ bufSize) (hlen : bufSize ≤ input.length)
    (h10 : ∀ b ∈ input.take bufSize, b ≠ 10) :
    ReadCommand bufSize input = (none, some ErrMultibulkLength, true) := by
  unfold ReadCommand
  obtain ⟨f, hf⟩ : ∃ f, input.length + 1 = f + 1 := ⟨input.length, rfl⟩
  rw [hf]
  unfold readCommandLoop
  rw [readValue_overlong bufSize DataTypeArray input hbuf hlen h10]
  simp

/-! ## Inversion: what a successful parse says about the consumed bytes -/

theorem readSlice_ok_append (bufSize : Nat) (input frag rest : List Nat)
    (h : readSlice bufSize input = (.ok frag, rest)) : input = frag ++ rest := by
  unfold readSlice at h
  cases hf : findLF input with
  | some idx =>
    rw [hf] at h
    have h2 : (if idx + 1 ≤ bufSize then
          ((SliceRes.ok (input.take (idx + 1)) : SliceRes), input.drop (idx + 1))
        else (SliceRes.bufferFull (input.take bufSize), input.drop bufSize)) =
        (SliceRes.ok frag, rest) := h
    by_cases hb : idx + 1 ≤ bufSize
    · rw [if_pos hb] at h2
      simp only [Prod.mk.injEq, SliceRes.ok.injEq] at h2
      obtain ⟨ha, hc⟩ := h2
      rw [← ha, ← hc]
      exact (List.take_append_drop _ _).symm
    · rw [if_neg hb] at h2
      simp at h2
  | none =>
    rw [hf] at h
    have h2 : (if bufSize ≤ input.length then
          ((SliceRes.bufferFull (input.take bufSize) : SliceRes), input.drop bufSize)
        else (SliceRes.eofData input, ([] : List Nat))) = (SliceRes.ok frag, rest) := h
    by_cases hb : bufSize ≤ input.length
    · rw [if_pos hb] at h2
      simp at h2
    · rw [if_neg hb] at h2
      simp at h2

theorem readSlice_bufferFull_append (bufSize : Nat) (input frag rest : List Nat)
    (h : readSlice bufSize input = (.bufferFull frag, rest)) : input = frag ++ rest := by
  unfold readSlice at h
  cases hf : findLF input with
  | some idx =>
    rw [hf] at h
    have h2 : (if idx + 1 ≤ bufSize then
          ((SliceRes.ok (input.take (idx + 1)) : SliceRes), input.drop (idx + 1))
        else (SliceRes.bufferFull (input.take bufSize), input.drop bufSize)) =
        (SliceRes.bufferFull frag, rest) := h
    by_cases hb : idx + 1 ≤ bufSize
    · rw [if_pos hb] at h2
      simp at h2
    · rw [if_neg hb] at h2
      simp only [Prod.mk.injEq, SliceRes.bufferFull.injEq] at h2
      obtain ⟨ha, hc⟩ := h2
      rw [← ha, ← hc]
      exact (List.take_append_drop _ _).symm
  | none =>
    rw [hf] at h
    have h2 : (if bufSize ≤ input.length then
          ((SliceRes.bufferFull (input.take bufSize) : SliceRes), input.drop bufSize)
        else (SliceRes.eofData input, ([] : List Nat))) =
        (SliceRes.bufferFull frag, rest) := h
    by_cases hb : bufSize ≤ input.length
    · rw [if_pos hb] at h2
      simp only [Prod.mk.injEq, SliceRes.bufferFull.injEq] at h2
      obtain ⟨ha, hc⟩ := h2
      rw [← ha, ← hc]
      exact (List.take_append_drop _ _).symm
    · rw [if_neg hb] at h2
      simp at h2

theorem readLineLoop_inv (bufSize limit : Nat) (fuel : Nat) :
    ∀ len st st', readLineLoop bufSize limit fuel len st = .ok st' →
      ∃ c, st.input = c ++ st'.input ∧ st'.raw = st.raw ++ c ∧
        (2 ≤ c.length ∨ (limit ≠ 0 ∧ limit ≤ len + c.length)) := by
  induction fuel with
  | zero =>
    intro len st st' h
    simp [readLineLoop] at h
  | succ f ih =>
    intro len st st' h
    unfold readLineLoop at h
    by_cases hcond : limit = 0 ∨ len < limit
    case neg =>
      rw [if_neg hcond] at h
      have hst : st = st' := by
        injection h
      subst hst
      push_neg at hcond
      exact ⟨[], by simp, by simp, Or.inr ⟨hcond.1, by omega⟩⟩
    case pos =>
      rw [if_pos hcond] at h
      rcases hrs : readSlice bufSize st.input with ⟨res, rest⟩
      rw [hrs] at h
      cases res with
      | eofData frag =>
        have h' : (Except.error RErr.eof : Except RErr RState) = .ok st' := h
        exact absurd h' (by simp)
      | ok frag =>
        have hinp : st.input = frag ++ rest := readSlice_ok_append bufSize st.input frag rest hrs
        have h' : (if frag.length < 2 ∨ frag.getD (frag.length - 2) 0 ≠ 13 then
            readLineLoop bufSize limit f (len + frag.length) ⟨rest, st.raw ++ frag⟩
          else .ok (⟨rest, st.raw ++ frag⟩ : RState)) = .ok st' := h
        by_cases hfr : frag.length < 2 ∨ frag.getD (frag.length - 2) 0 ≠ 13
        · rw [if_pos hfr] at h'
          obtain ⟨c, hc1, hc2, hc3⟩ := ih (len + frag.length) ⟨rest, st.raw ++ frag⟩ st' h'
          simp only at hc1 hc2
          refine ⟨frag ++ c, ?_, ?_, ?_⟩
          · rw [hinp, hc1]
            simp
          · rw [hc2]
            simp
          · rcases hc3 with h2 | ⟨hl0, hl⟩
            · left
              simp only [List.length_append]
              omega
            · right
              refine ⟨hl0, ?_⟩
              simp only [List.length_append]
              omega
        · rw [if_neg hfr] at h'
          have hst : (⟨rest, st.raw ++ frag⟩ : RState) = st' := by
            injection h'
          push_neg at hfr
          refine ⟨frag, ?_, ?_, Or.inl (by omega)⟩
          · rw [hinp, ← hst]
          · rw [← hst]
      | bufferFull frag =>
        have hinp : st.input = frag ++ rest :=
          readSlice_bufferFull_append bufSize st.input frag rest hrs
        have h' : readLineLoop bufSize limit f (len + frag.length)
            ⟨rest, st.raw ++ frag⟩ = .ok st' := h
        obtain ⟨c, hc1, hc2, hc3⟩ := ih (len + frag.length) ⟨rest, st.raw ++ frag⟩ st' h'
        simp only at hc1 hc2
        refine ⟨frag ++ c, ?_, ?_, ?_⟩
        · rw [hinp, hc1]
          simp
        · rw [hc2]
          simp
        · rcases hc3 with h2 | ⟨hl0, hl⟩
          · left
            simp only [List.length_append]
            omega
          · right
            refine ⟨hl0, ?_⟩
            simp only [List.length_append]
            omega

theorem readLine_inv (bufSize dt limit : Nat) (st : RState) (line : List Nat) (st' : RState)
    (hlim : limit = 0 ∨ 2 ≤ limit) (hdt : dt ≠ 13)
    (h : readLine bufSize dt limit st = .ok (line, st')) :
    st.input = (dt :: line ++ [13, 10]) ++ st'.input ∧
      st'.raw = st.raw ++ (dt :: line ++ [13, 10]) := by
  unfold readLine at h
  rcases hl : readLineLoop bufSize limit (st.input.length + 1) 0 st with e | stl
  · rw [hl] at h
    exact absurd h (by simp)
  · rw [hl] at h
    have h' : (if hasTerminator stl.raw = false then
          (.error .errLineLimitExceeded : Except RErr (List Nat × RState))
        else if stl.raw.getD st.raw.length 0 ≠ dt then
          .error (.protocol (strBytes "ERR")
            (strBytes "expected '" ++ [dt] ++ strBytes "', got '" ++
              [stl.raw.getD st.raw.length 0] ++ strBytes "'"))
        else .ok ((stl.raw.take (stl.raw.length - 2)).drop (st.raw.length + 1), stl)) =
        .ok (line, st') := h
    by_cases ht : hasTerminator stl.raw = false
    · rw [if_pos ht] at h'
      exact absurd h' (by simp)
    · rw [if_neg ht] at h'
      by_cases hch : stl.raw.getD st.raw.length 0 ≠ dt
      · rw [if_pos hch] at h'
        exact absurd h' (by simp)
      · rw [if_neg hch] at h'
        push_neg at hch
        have hterm : hasTerminator stl.raw = true := by
          cases hh : hasTerminator stl.raw
          · exact absurd hh ht
          · rfl
        injection h' with hpair
        injection hpair with hline hstl
        obtain ⟨c, hc1, hc2, hc3⟩ := readLineLoop_inv bufSize limit _ 0 st stl hl
        have hclen : 2 ≤ c.length := by
          rcases hc3 with h2 | ⟨hl0, hle⟩
          · exact h2
          · rcases hlim with rfl | h2
            · exact absurd rfl hl0
            · omega
        -- the last two bytes of c are CR LF
        obtain ⟨m, x, y, hmxy, hmlen⟩ := exists_append_two c hclen
        obtain ⟨hx, hy⟩ := getD_of_append_two c m x y hmxy hmlen
        have hrawlen : stl.raw.length = st.raw.length + c.length := by
          rw [hc2]
          simp
        have hgx : stl.raw.getD (stl.raw.length - 2) 0 = c.getD (c.length - 2) 0 := by
          rw [hc2]
          have hi : stl.raw.length - 2 = st.raw.length + (c.length - 2) := by
            rw [hrawlen]
            omega
          rw [hc2] at hi
          rw [hi]
          exact getD_append_right _ _ _ _
        have hgy : stl.raw.getD (stl.raw.length - 1) 0 = c.getD (c.length - 1) 0 := by
          rw [hc2]
          have hi : stl.raw.length - 1 = st.raw.length + (c.length - 1) := by
            rw [hrawlen]
            omega
          rw [hc2] at hi
          rw [hi]
          exact getD_append_right _ _ _ _
        have h13 : x = 13 := by
          simp only [hasTerminator, Bool.and_eq_true, decide_eq_true_eq, beq_iff_eq] at hterm
          rw [← hx, ← hgx]
          exact hterm.1.2
        have h10 : y = 10 := by
          simp only [hasTerminator, Bool.and_eq_true, decide_eq_true_eq, beq_iff_eq] at hterm
          rw [← hy, ← hgy]
          exact hterm.2
        -- the first byte of c is the data type
        have hch0 : c.getD 0 0 = dt := by
          rw [← hch, hc2]
          have := getD_append_right st.raw c 0 0
          simpa using this.symm
        have hmne : m ≠ [] := by
          intro hm
          rw [hm] at hmxy
          simp only [List.nil_append] at hmxy
          rw [hmxy] at hch0
          simp only [List.getD] at hch0
          subst h13
          exact hdt hch0.symm
        obtain ⟨m0, mrest, rfl⟩ : ∃ m0 mrest, m = m0 :: mrest := by
          cases m with
          | nil => exact absurd rfl hmne
          | cons a l => exact ⟨a, l, rfl⟩
        have hm0 : m0 = dt := by
          rw [← hch0, hmxy]
          have h0 : (0 : Nat) < (m0 :: mrest).length := by simp
          rw [getD_append_left _ _ 0 0 h0]
          rfl
        -- compute the returned line
        have htke : stl.raw.take (stl.raw.length - 2) = st.raw ++ m0 :: mrest := by
          have hre : stl.raw = (st.raw ++ m0 :: mrest) ++ [x, y] := by
            rw [hc2, hmxy]
            simp
          have hi : stl.raw.length - 2 = (st.raw ++ m0 :: mrest).length := by
            rw [hrawlen, hmxy]
            simp
            omega
          rw [hi, hre]
          exact take_append_self _ _
        have hdropm : (st.raw ++ m0 :: mrest).drop (st.raw.length + 1) = mrest := by
          have hre2 : st.raw ++ m0 :: mrest = (st.raw ++ [m0]) ++ mrest := by simp
          have hi2 : st.raw.length + 1 = (st.raw ++ [m0]).length := by simp
          rw [hre2, hi2]
          exact drop_append_self _ _
        have hlinem : line = mrest := by
          rw [← hline, htke, hdropm]
        have hcform : c = dt :: line ++ [13, 10] := by
          rw [hmxy, hm0, h13, h10, hlinem]
        subst hstl
        constructor
        · rw [hc1, hcform]
        · rw [hc2, hcform]

theorem readValue_inv (bufSize dt : Nat) (st : RState) (n : Int) (st' : RState)
    (hdt : dt ≠ 13)
    (h : readValue bufSize dt st = .ok (n, st')) :
    ∃ mid, st.input = (dt :: mid ++ [13, 10]) ++ st'.input ∧
      st'.raw = st.raw ++ (dt :: mid ++ [13, 10]) ∧ parseInt mid = some n := by
  unfold readValue at h
  rcases hl : readLine bufSize dt 23 st with e | p
  · rw [hl] at h
    exact absurd h (by simp)
  · obtain ⟨line, stl⟩ := p
    rw [hl] at h
    have h' : (match parseInt line with
        | none => (.error .errValue : Except RErr (Int × RState))
        | some v => .ok (v, stl)) = .ok (n, st') := h
    rcases hp : parseInt line with _ | v
    · rw [hp] at h'
      exact absurd h' (by simp)
    · rw [hp] at h'
      injection h' with hpair
      injection hpair with hv hstl
      obtain ⟨hc1, hc2⟩ := readLine_inv bufSize dt 23 st line stl (Or.inr (by omega)) hdt hl
      subst hstl
      exact ⟨line, hc1, hc2, by rw [hp, hv]⟩

theorem readFull_inv (fuel : Nat) : ∀ (remain : Int) (st st' : RState),
    readFull fuel remain st = .ok st' →
      ∃ c, st.input = c ++ st'.input ∧ st'.raw = st.raw ++ c ∧
        ((0 < remain ∧ (c.length : Int) = remain) ∨ (remain ≤ 0 ∧ c = [])) := by
  induction fuel with
  | zero =>
    intro remain st st' h
    simp [readFull] at h
  | succ f ih =>
    intro remain st st' h
    unfold readFull at h
    by_cases hr : 0 < remain
    · rw [if_pos hr] at h
      by_cases he : st.input.isEmpty = true
      · rw [if_pos he] at h
        exact absurd h (by simp)
      · rw [if_neg he] at h
        have h' : readFull f (remain - ((min remain.toNat st.input.length : Nat) : Int))
            ⟨st.input.drop (min remain.toNat st.input.length),
              st.raw ++ st.input.take (min remain.toNat st.input.length)⟩ = .ok st' := h
        set t := min remain.toNat st.input.length with hts
        obtain ⟨c, h1, h2, h3⟩ := ih (remain - (t : Int)) _ st' h'
        simp only at h1 h2
        have htle : t ≤ st.input.length := by omega
        have htlen : (st.input.take t).length = t := by
          rw [List.length_take]
          omega
        refine ⟨st.input.take t ++ c, ?_, ?_, ?_⟩
        · conv_lhs => rw [← List.take_append_drop t st.input]
          rw [h1]
          simp
        · rw [h2]
          simp
        · left
          refine ⟨hr, ?_⟩
          have htr : (t : Int) ≤ remain := by
            have : t ≤ remain.toNat := by omega
            omega
          rcases h3 with ⟨hpos, hlen⟩ | ⟨hle, hnil⟩
          · simp only [List.length_append, htlen]
            push_cast
            omega
          · rw [hnil]
            simp only [List.append_nil, htlen]
            omega
    · rw [if_neg hr] at h
      have hst : st = st' := by injection h
      subst hst
      exact ⟨[], by simp, by simp, Or.inr ⟨by omega, rfl⟩⟩

theorem readBulk_inv (bufSize : Nat) (st : RState) (arg : List Nat) (st' : RState)
    (h : readBulk bufSize st = .ok (some arg, st')) :
    ∃ mid, parseInt mid = some ((arg.length : Int)) ∧
      st.input = ((DataTypeBulkString :: mid ++ [13, 10]) ++ (arg ++ [13, 10])) ++ st'.input ∧
      st'.raw = st.raw ++ ((DataTypeBulkString :: mid ++ [13, 10]) ++ (arg ++ [13, 10])) := by
  unfold readBulk at h
  rcases hv : readValue bufSize DataTypeBulkString st with e | p
  · rw [hv] at h
    exact absurd h (by simp)
  · obtain ⟨bl, st1⟩ := p
    rw [hv] at h
    have h' : (if bl < 0 then (.ok (none, st1) : Except RErr (Option (List Nat) × RState))
        else
          match readFull ((bl + 2).toNat + 1) (bl + 2) st1 with
          | .error e => .error e
          | .ok st2 =>
            if hasTerminator st2.raw = false then .error ErrBulkLength
            else .ok (some ((st2.raw.take (st2.raw.length - 2)).drop st1.raw.length), st2)) =
        .ok (some arg, st') := h
    by_cases hbl : bl < 0
    · rw [if_pos hbl] at h'
      exact absurd h' (by simp)
    · rw [if_neg hbl] at h'
      rcases hrf : readFull ((bl + 2).toNat + 1) (bl + 2) st1 with e | st2
      · rw [hrf] at h'
        exact absurd h' (by simp)
      · rw [hrf] at h'
        have h2 : (if hasTerminator st2.raw = false then
              (.error ErrBulkLength : Except RErr (Option (List Nat) × RState))
            else .ok (some ((st2.raw.take (st2.raw.length - 2)).drop st1.raw.length), st2)) =
            .ok (some arg, st') := h'
        by_cases hterm0 : hasTerminator st2.raw = false
        · rw [if_pos hterm0] at h2
          exact absurd h2 (by simp)
        · rw [if_neg hterm0] at h2
          injection h2 with hpair
          injection hpair with hsome hst2
          injection hsome with harg
          have hterm : hasTerminator st2.raw = true := by
            cases hh : hasTerminator st2.raw
            · exact absurd hh hterm0
            · rfl
          obtain ⟨mid, hc1, hc2, hpmid⟩ := readValue_inv bufSize DataTypeBulkString st bl st1
            (by norm_num [DataTypeBulkString]) hv
          obtain ⟨c2, hf1, hf2, hf3⟩ := readFull_inv ((bl + 2).toNat + 1) (bl + 2) st1 st2 hrf
          have hblpos : (0 : Int) < bl + 2 := by omega
          have hc2len : (c2.length : Int) = bl + 2 := by
            rcases hf3 with ⟨-, hl⟩ | ⟨hle, -⟩
            · exact hl
            · omega
          have hc2len2 : 2 ≤ c2.length := by omega
          obtain ⟨m2, x, y, hm2, hm2len⟩ := exists_append_two c2 hc2len2
          obtain ⟨hx, hy⟩ := getD_of_append_two c2 m2 x y hm2 hm2len
          have hrawlen : st2.raw.length = st1.raw.length + c2.length := by
            rw [hf2]
            simp
          have hgx : st2.raw.getD (st2.raw.length - 2) 0 = c2.getD (c2.length - 2) 0 := by
            have hi : st2.raw.length - 2 = st1.raw.length + (c2.length - 2) := by
              rw [hrawlen]
              omega
            rw [hf2] at hi ⊢
            rw [hi]
            exact getD_append_right _ _ _ _
          have hgy : st2.raw.getD (st2.raw.length - 1) 0 = c2.getD (c2.length - 1) 0 := by
            have hi : st2.raw.length - 1 = st1.raw.length + (c2.length - 1) := by
              rw [hrawlen]
              omega
            rw [hf2] at hi ⊢
            rw [hi]
            exact getD_append_right _ _ _ _
          have h13 : x = 13 := by
            simp only [hasTerminator, Bool.and_eq_true, decide_eq_true_eq, beq_iff_eq] at hterm
            rw [← hx, ← hgx]
            exact hterm.1.2
          have h10 : y = 10 := by
            simp only [hasTerminator, Bool.and_eq_true, decide_eq_true_eq, beq_iff_eq] at hterm
            rw [← hy, ← hgy]
            exact hterm.2
          have htke : st2.raw.take (st2.raw.length - 2) = st1.raw ++ m2 := by
            have hre : st2.raw = (st1.raw ++ m2) ++ [x, y] := by
              rw [hf2, hm2]
              simp
            have hi : st2.raw.length - 2 = (st1.raw ++ m2).length := by
              rw [hrawlen, hm2]
              simp
              omega
            rw [hi, hre]
            exact take_append_self _ _
          have hargm2 : m2 = arg := by
            rw [← harg, htke]
            exact (drop_append_self _ _).symm
          have harglen : (arg.length : Int) = bl := by
            rw [← hargm2]
            have : m2.length = c2.length - 2 := hm2len
            omega
          have hc2form : c2 = arg ++ [13, 10] := by
            rw [hm2, hargm2, h13, h10]
          subst hst2
          refine ⟨mid, by rw [hpmid, harglen], ?_, ?_⟩
          · rw [hc1, hf1, hc2form]
            simp
          · rw [hf2, hc2, hc2form]
            simp

/-- The on-wire bytes of one parsed bulk element: its length line (with the
bytes between `$` and CRLF as delivered) followed by its content line. -/
def renderSeg (p : List Nat × List Nat) : List Nat :=
  (DataTypeBulkString :: p.1 ++ [13, 10]) ++ (p.2 ++ [13, 10])

theorem readElems_inv (bufSize : Nat) (n : Nat) : ∀ st args st',
    readElems bufSize n st = .ok (args, st') →
      ∃ segs : List (List Nat × List Nat),
        args = segs.map Prod.snd ∧ segs.length = n ∧
        st.input = (segs.map renderSeg).flatten ++ st'.input ∧
        st'.raw = st.raw ++ (segs.map renderSeg).flatten ∧
        ∀ p ∈ segs, parseInt p.1 = some ((p.2.length : Int)) := by
  induction n with
  | zero =>
    intro st args st' h
    have h' : (.ok ([], st) : Except RErr (List (List Nat) × RState)) = .ok (args, st') := h
    injection h' with hpair
    injection hpair with hargs hst
    subst hst
    exact ⟨[], hargs.symm, rfl, by simp, by simp, by simp⟩
  | succ m ih =>
    intro st args st' h
    unfold readElems at h
    rcases hb : readBulk bufSize st with e | p
    · rw [hb] at h
      exact absurd h (by simp)
    · obtain ⟨oarg, st1⟩ := p
      rw [hb] at h
      cases oarg with
      | none =>
        have h' : (.error ErrBulkLength : Except RErr (List (List Nat) × RState)) =
            .ok (args, st') := h
        exact absurd h' (by simp)
      | some arg =>
        have h' : (match readElems bufSize m st1 with
            | Except.error e => (Except.error e : Except RErr (List (List Nat) × RState))
            | Except.ok (args2, st2) => Except.ok (arg :: args2, st2)) = .ok (args, st') := h
        rcases he : readElems bufSize m st1 with e | q
        · rw [he] at h'
          exact absurd h' (by simp)
        · obtain ⟨args2, st2⟩ := q
          rw [he] at h'
          injection h' with hpair
          injection hpair with hargs hst2
          obtain ⟨mid, hpmid, hin, hraw⟩ := readBulk_inv bufSize st arg st1 hb
          obtain ⟨segs, hs1, hs2, hs3, hs4, hs5⟩ := ih st1 args2 st2 he
          subst hst2
          refine ⟨(mid, arg) :: segs, ?_, ?_, ?_, ?_, ?_⟩
          · rw [← hargs, hs1]
            rfl
          · simp [hs2]
          · rw [hin, hs3]
            simp [renderSeg]
          · rw [hs4, hraw]
            simp [renderSeg]
          · intro p hp
            rcases List.mem_cons.mp hp with rfl | hp'
            · exact hpmid
            · exact hs5 p hp'

theorem readCommandLoop_inv (bufSize : Nat) (fuel : Nat) : ∀ input cmd,
    readCommandLoop bufSize fuel input = .ok cmd →
      ∃ (skipped rest hmid : List Nat) (n : Int) (segs : List (List Nat × List Nat)),
        input = skipped ++ cmd.Raw ++ rest ∧
        cmd.Raw = (DataTypeArray :: hmid ++ [13, 10]) ++ (segs.map renderSeg).flatten ∧
        parseInt hmid = some n ∧ 0 < n ∧
        segs.length = n.toNat ∧ cmd.Args = segs.map Prod.snd ∧
        ∀ p ∈ segs, parseInt p.1 = some ((p.2.length : Int)) := by
  induction fuel with
  | zero =>
    intro input cmd h
    simp [readCommandLoop] at h
  | succ f ih =>
    intro input cmd h
    unfold readCommandLoop at h
    cases hv : readValue bufSize DataTypeArray ⟨input, []⟩ with
    | error e =>
      rw [hv] at h
      have h' : (Except.error (if e = RErr.errValue then ErrMultibulkLength else e) :
          Except RErr Command) = .ok cmd := h
      exact absurd h' (by simp)
    | ok p =>
      obtain ⟨n0, st1⟩ := p
      rw [hv] at h
      have h' : (if n0 ≤ 0 then readCommandLoop bufSize f st1.input
          else match readElems bufSize n0.toNat st1 with
            | .error e => .error e
            | .ok (args, st2) => .ok (⟨st2.raw, args⟩ : Command)) = .ok cmd := h
      obtain ⟨hmid0, hin0, hraw0, hp0⟩ := readValue_inv bufSize DataTypeArray ⟨input, []⟩ n0 st1
        (by norm_num [DataTypeArray]) hv
      simp only [List.nil_append] at hin0 hraw0
      by_cases hn0 : n0 ≤ 0
      · rw [if_pos hn0] at h'
        obtain ⟨skipped, rest, hmid, n, segs, ha, hb2, hc, hd, he2, hf2, hg⟩ :=
          ih st1.input cmd h'
        refine ⟨(DataTypeArray :: hmid0 ++ [13, 10]) ++ skipped, rest, hmid, n, segs,
          ?_, hb2, hc, hd, he2, hf2, hg⟩
        rw [hin0, ha]
        simp
      · rw [if_neg hn0] at h'
        rcases he : readElems bufSize n0.toNat st1 with e | q
        · rw [he] at h'
          exact absurd h' (by simp)
        · obtain ⟨args, st2⟩ := q
          rw [he] at h'
          injection h' with hcmd
          obtain ⟨segs, hs1, hs2, hs3, hs4, hs5⟩ := readElems_inv bufSize n0.toNat st1 args st2 he
          refine ⟨[], st2.input, hmid0, n0, segs, ?_, ?_, hp0, by omega, hs2, ?_, hs5⟩
          · rw [← hcmd]
            dsimp only
            rw [hs4, hraw0, hin0, hs3]
            simp
          · rw [← hcmd]
            dsimp only
            rw [hs4, hraw0]
          · rw [← hcmd]
            dsimp only
            exact hs1

theorem ReadCommand_inv (bufSize : Nat) (input : List Nat) (cmd : Command)
    (x : Option RErr) (r : Bool)
    (h : ReadCommand bufSize input = (some cmd, x, r)) :
    ∃ (skipped rest hmid : List Nat) (n : Int) (segs : List (List Nat × List Nat)),
      input = skipped ++ cmd.Raw ++ rest ∧
      cmd.Raw = (DataTypeArray :: hmid ++ [13, 10]) ++ (segs.map renderSeg).flatten ∧
      parseInt hmid = some n ∧ 0 < n ∧
      segs.length = n.toNat ∧ cmd.Args = segs.map Prod.snd ∧
      (∀ p ∈ segs, parseInt p.1 = some ((p.2.length : Int))) ∧
      (cmd.Args.length : Int) = n := by
  unfold ReadCommand at h
  rcases hl : readCommandLoop bufSize (input.length + 1) input with e | c
  · rw [hl] at h
    simp at h
  · rw [hl] at h
    simp only [Prod.mk.injEq, Option.some.injEq] at h
    obtain ⟨rfl, -, -⟩ := h
    obtain ⟨skipped, rest, hmid, n, segs, ha, hb2, hc, hd, he2, hf2, hg⟩ :=
      readCommandLoop_inv bufSize (input.length + 1) input c hl
    refine ⟨skipped, rest, hmid, n, segs, ha, hb2, hc, hd, he2, hf2, hg, ?_⟩
    rw [hf2]
    simp only [List.length_map]
    omega

/-! ## Simple-string lines across buffer fragments

With limit 0 (simple strings and errors) a line can span several buffered
fragments.  The line is read successfully unless its LF lands exactly at a
fragment boundary: then the lone-LF fragment is shorter than two bytes, the
loop continues past the line and the next draw hits the end of the source. -/

theorem take_append_le (xs ys : List Nat) (n : Nat) (h : n ≤ xs.length) :
    (xs ++ ys).take n = xs.take n := by
  induction xs generalizing n with
  | nil =>
    simp only [List.length_nil, Nat.le_zero] at h
    simp [h]
  | cons a xs ih =>
    cases n with
    | zero => simp
    | succ n => simpa using ih n (by simpa using h)

theorem drop_append_le (xs ys : List Nat) (n : Nat) (h : n ≤ xs.length) :
    (xs ++ ys).drop n = xs.drop n ++ ys := by
  induction xs generalizing n with
  | nil =>
    simp only [List.length_nil, Nat.le_zero] at h
    simp [h]
  | cons a xs ih =>
    cases n with
    | zero => simp
    | succ n => simpa using ih n (by simpa using h)

theorem getD_drop (l : List Nat) (k i d : Nat) :
    (l.drop k).getD i d = l.getD (k + i) d := by
  induction l generalizing k with
  | nil => simp
  | cons a t ih =>
    cases k with
    | zero => simp
    | succ k => simpa [Nat.succ_add] using ih k

theorem readSlice_line_step (bufSize : Nat) (w : List Nat)
    (h10 : ∀ b ∈ w, b ≠ 10) (hble : bufSize ≤ w.length) :
    readSlice bufSize (w ++ [10]) =
      (.bufferFull (w.take bufSize), w.drop bufSize ++ [10]) := by
  have hfind : findLF (w ++ [10]) = some w.length := by
    simpa using findLF_append_no w [] h10
  have hnle : ¬ (w.length + 1 ≤ bufSize) := by omega
  have htk : (w ++ [10]).take bufSize = w.take bufSize := take_append_le w [10] bufSize hble
  have hdp : (w ++ [10]).drop bufSize = w.drop bufSize ++ [10] :=
    drop_append_le w [10] bufSize hble
  unfold readSlice
  rw [hfind]
  show (if w.length + 1 ≤ bufSize then
      ((SliceRes.ok ((w ++ [10]).take (w.length + 1)) : SliceRes), (w ++ [10]).drop (w.length + 1))
    else (SliceRes.bufferFull ((w ++ [10]).take bufSize), (w ++ [10]).drop bufSize)) =
    (SliceRes.bufferFull (w.take bufSize), w.drop bufSize ++ [10])
  rw [if_neg hnle, htk, hdp]

theorem readLineLoop_unlimited (bufSize : Nat) (hB : 0 < bufSize) :
    ∀ fuel (w raw0 : List Nat) (len0 : Nat),
      w.length < fuel →
      (∀ b ∈ w, b ≠ 10) →
      w.length % bufSize ≠ 0 →
      w.getD (w.length - 1) 0 = 13 →
      readLineLoop bufSize 0 fuel len0 ⟨w ++ [10], raw0⟩ =
        .ok ⟨[], raw0 ++ (w ++ [10])⟩ := by
  intro fuel
  induction fuel with
  | zero =>
    intro w raw0 len0 hf
    omega
  | succ f ih =>
    intro w raw0 len0 hf h10 hmod hcr
    have hwpos : 0 < w.length := by
      rcases Nat.eq_zero_or_pos w.length with h0 | h
      · rw [h0] at hmod
        simp at hmod
      · exact h
    unfold readLineLoop
    rw [if_pos (Or.inl rfl)]
    by_cases hle : w.length + 1 ≤ bufSize
    · -- the whole line arrives in one final fragment
      have hfind : findLF (w ++ [10]) = some w.length := by
        simpa using findLF_append_no w [] h10
      have hlen1 : (w ++ [10]).length = w.length + 1 := by simp
      have hrs : readSlice bufSize (w ++ [10]) = (.ok (w ++ [10]), []) := by
        have htk : (w ++ [10]).take (w.length + 1) = w ++ [10] := by
          rw [← hlen1]
          exact List.take_length _
        have hdp : (w ++ [10]).drop (w.length + 1) = [] := by
          rw [← hlen1]
          exact List.drop_length _
        unfold readSlice
        rw [hfind]
        show (if w.length + 1 ≤ bufSize then
            ((SliceRes.ok ((w ++ [10]).take (w.length + 1)) : SliceRes),
              (w ++ [10]).drop (w.length + 1))
          else (SliceRes.bufferFull ((w ++ [10]).take bufSize), (w ++ [10]).drop bufSize)) =
          (SliceRes.ok (w ++ [10]), [])
        rw [if_pos hle, htk, hdp]
      rw [hrs]
      show (if (w ++ [10]).length < 2 ∨ (w ++ [10]).getD ((w ++ [10]).length - 2) 0 ≠ 13 then
          readLineLoop bufSize 0 f (len0 + (w ++ [10]).length) ⟨[], raw0 ++ (w ++ [10])⟩
        else .ok (⟨[], raw0 ++ (w ++ [10])⟩ : RState)) = .ok ⟨[], raw0 ++ (w ++ [10])⟩
      have hg : (w ++ [10]).getD ((w ++ [10]).length - 2) 0 = 13 := by
        have hi : (w ++ [10]).length - 2 = w.length - 1 := by
          rw [hlen1]
          omega
        rw [hi, getD_append_left w [10] (w.length - 1) 0 (by omega)]
        exact hcr
      have hnot : ¬ ((w ++ [10]).length < 2 ∨ (w ++ [10]).getD ((w ++ [10]).length - 2) 0 ≠ 13) := by
        push_neg
        exact ⟨by rw [hlen1]; omega, hg⟩
      rw [if_neg hnot]
    · -- a full buffer without the LF: draw it and keep going
      push_neg at hle
      have hble : bufSize ≤ w.length := by omega
      have hbne : bufSize ≠ w.length := by
        intro he
        rw [← he] at hmod
        simp at hmod
      have hblt : bufSize < w.length := by omega
      rw [readSlice_line_step bufSize w h10 hble]
      show readLineLoop bufSize 0 f (len0 + (w.take bufSize).length)
          ⟨w.drop bufSize ++ [10], raw0 ++ w.take bufSize⟩ =
        .ok ⟨[], raw0 ++ (w ++ [10])⟩
      have hdlen : (w.drop bufSize).length = w.length - bufSize := by simp
      have hmod' : (w.drop bufSize).length % bufSize ≠ 0 := by
        rw [hdlen]
        intro hz
        apply hmod
        have hadd : w.length - bufSize + bufSize = w.length := by omega
        rw [← hadd, Nat.add_mod_right]
        exact hz
      have h10' : ∀ b ∈ w.drop bufSize, b ≠ 10 := by
        intro b hb
        apply h10
        rw [← List.take_append_drop bufSize w]
        exact List.mem_append_right _ hb
      have hcr' : (w.drop bufSize).getD ((w.drop bufSize).length - 1) 0 = 13 := by
        rw [getD_drop, hdlen]
        have : bufSize + (w.length - bufSize - 1) = w.length - 1 := by omega
        rw [this]
        exact hcr
      have hrec := ih (w.drop bufSize) (raw0 ++ w.take bufSize) (len0 + (w.take bufSize).length)
        (by rw [hdlen]; omega) h10' hmod' hcr'
      have hjoin : (raw0 ++ List.take bufSize w) ++ (List.drop bufSize w ++ [10]) =
          raw0 ++ (w ++ [10]) := by
        rw [List.append_assoc, ← List.append_assoc (List.take bufSize w),
          List.take_append_drop]
      rw [hrec, hjoin]

theorem readLineLoop_lf_eof (bufSize : Nat) (hB : 0 < bufSize) (f : Nat) (raw0 : List Nat)
    (len0 : Nat) (hf : 2 ≤ f) :
    readLineLoop bufSize 0 f len0 ⟨[10], raw0⟩ = .error .eof := by
  obtain ⟨f1, rfl⟩ : ∃ f1, f = f1 + 1 + 1 := ⟨f - 2, by omega⟩
  have hrs : readSlice bufSize [10] = (.ok [10], []) := by
    have hfind : findLF [10] = some 0 := by simp [findLF]
    unfold readSlice
    rw [hfind]
    show (if 0 + 1 ≤ bufSize then
        ((SliceRes.ok (([10] : List Nat).take (0 + 1)) : SliceRes), ([10] : List Nat).drop (0 + 1))
      else (SliceRes.bufferFull (([10] : List Nat).take bufSize), ([10] : List Nat).drop bufSize)) =
      (SliceRes.ok [10], [])
    rw [if_pos (by omega)]
    rfl
  unfold readLineLoop
  rw [if_pos (Or.inl rfl), hrs]
  show (if ([10] : List Nat).length < 2 ∨ ([10] : List Nat).getD (([10] : List Nat).length - 2) 0 ≠ 13 then
      readLineLoop bufSize 0 (f1 + 1) (len0 + ([10] : List Nat).length) ⟨[], raw0 ++ [10]⟩
    else .ok (⟨[], raw0 ++ [10]⟩ : RState)) = .error .eof
  rw [if_pos (Or.inl (by simp))]
  have hrs2 : readSlice bufSize ([] : List Nat) = (.eofData [], []) := by
    have hfind : findLF ([] : List Nat) = none := rfl
    unfold readSlice
    rw [hfind]
    show (if bufSize ≤ ([] : List Nat).length then
        ((SliceRes.bufferFull (([] : List Nat).take bufSize) : SliceRes),
          ([] : List Nat).drop bufSize)
      else (SliceRes.eofData ([] : List Nat), ([] : List Nat))) = (SliceRes.eofData [], [])
    rw [if_neg (by simp only [List.length_nil]; omega)]
  unfold readLineLoop
  rw [if_pos (Or.inl rfl), hrs2]

theorem readLineLoop_straddle (bufSize : Nat) (hB : 0 < bufSize) :
    ∀ fuel (w raw0 : List Nat) (len0 : Nat),
      w.length + 2 ≤ fuel →
      (∀ b ∈ w, b ≠ 10) →
      w.length % bufSize = 0 →
      0 < w.length →
      readLineLoop bufSize 0 fuel len0 ⟨w ++ [10], raw0⟩ = .error .eof := by
  intro fuel
  induction fuel with
  | zero =>
    intro w raw0 len0 hf
    omega
  | succ f ih =>
    intro w raw0 len0 hf h10 hmod hpos
    have hble : bufSize ≤ w.length := Nat.le_of_dvd hpos (Nat.dvd_of_mod_eq_zero hmod)
    unfold readLineLoop
    rw [if_pos (Or.inl rfl), readSlice_line_step bufSize w h10 hble]
    show readLineLoop bufSize 0 f (len0 + (w.take bufSize).length)
        ⟨w.drop bufSize ++ [10], raw0 ++ w.take bufSize⟩ = .error .eof
    by_cases hcase : bufSize < w.length
    · have hdlen : (w.drop bufSize).length = w.length - bufSize := by simp
      have hmod' : (w.drop bufSize).length % bufSize = 0 := by
        rw [hdlen]
        have hadd : w.length - bufSize + bufSize = w.length := by omega
        rw [← Nat.add_mod_right (w.length - bufSize) bufSize, hadd]
        exact hmod
      have h10' : ∀ b ∈ w.drop bufSize, b ≠ 10 := by
        intro b hb
        apply h10
        rw [← List.take_append_drop bufSize w]
        exact List.mem_append_right _ hb
      exact ih (w.drop bufSize) (raw0 ++ w.take bufSize) (len0 + (w.take bufSize).length)
        (by rw [hdlen]; omega) h10' hmod' (by rw [hdlen]; omega)
    · have heq : bufSize = w.length := by omega
      have hdnil : w.drop bufSize = [] := by
        rw [heq]
        exact List.drop_length _
      rw [hdnil, List.nil_append]
      exact readLineLoop_lf_eof bufSize hB f (raw0 ++ w.take bufSize)
        (len0 + (w.take bufSize).length) (by omega)

theorem ReadSimpleString_write_general (bufSize : Nat) (s : List Nat)
    (hclean : ∀ b ∈ s, b ≠ 13 ∧ b ≠ 10) (hB : 0 < bufSize)
    (hmod : (s.length + 2) % bufSize ≠ 0) :
    ReadSimpleString bufSize (WriteSimpleString s) = .ok s := by
  have hshape : WriteSimpleString s = (DataTypeSimpleString :: s ++ [13]) ++ [10] := by
    simp [WriteSimpleString, writeTerminator, writeString_clean s hclean]
  have h10 : ∀ b ∈ DataTypeSimpleString :: s ++ [13], b ≠ 10 := by
    intro b hb
    rcases List.mem_cons.mp hb with rfl | hb'
    · norm_num [DataTypeSimpleString]
    · rcases List.mem_append.mp hb' with h | h
      · exact (hclean b h).2
      · simp only [List.mem_singleton] at h
        omega
  have hwlen : (DataTypeSimpleString :: s ++ [13]).length = s.length + 2 := by simp
  have hmod' : (DataTypeSimpleString :: s ++ [13]).length % bufSize ≠ 0 := by
    rw [hwlen]
    exact hmod
  have hcr : (DataTypeSimpleString :: s ++ [13]).getD
      ((DataTypeSimpleString :: s ++ [13]).length - 1) 0 = 13 := by
    have hre : DataTypeSimpleString :: s ++ [13] = (DataTypeSimpleString :: s) ++ [13] := by
      simp
    have hi : (DataTypeSimpleString :: s ++ [13]).length - 1 =
        (DataTypeSimpleString :: s).length + 0 := by simp
    rw [hi, hre, getD_append_right]
    rfl
  have hloop := readLineLoop_unlimited bufSize hB
    (((DataTypeSimpleString :: s ++ [13]) ++ [10]).length + 1)
    (DataTypeSimpleString :: s ++ [13]) [] 0 (by simp) h10 hmod' hcr
  unfold ReadSimpleString
  unfold readLine
  rw [hshape]
  rw [show (RState.mk ((DataTypeSimpleString :: s ++ [13]) ++ [10]) ([] : List Nat)).input =
    (DataTypeSimpleString :: s ++ [13]) ++ [10] from rfl]
  rw [hloop]
  have hterm : hasTerminator (([] : List Nat) ++ ((DataTypeSimpleString :: s ++ [13]) ++ [10])) =
      true := by
    have : ([] : List Nat) ++ ((DataTypeSimpleString :: s ++ [13]) ++ [10]) =
        (DataTypeSimpleString :: s) ++ [13, 10] := by simp
    rw [this]
    exact hasTerminator_append_crlf _
  have hch : (([] : List Nat) ++ ((DataTypeSimpleString :: s ++ [13]) ++ [10])).getD
      (RState.mk ((DataTypeSimpleString :: s ++ [13]) ++ [10]) ([] : List Nat)).raw.length 0 =
      DataTypeSimpleString := by
    rfl
  have htke : ((([] : List Nat) ++ ((DataTypeSimpleString :: s ++ [13]) ++ [10])).take
      ((([] : List Nat) ++ ((DataTypeSimpleString :: s ++ [13]) ++ [10])).length - 2)).drop
      ((RState.mk ((DataTypeSimpleString :: s ++ [13]) ++ [10]) ([] : List Nat)).raw.length + 1) =
      s := by
    have hre : ([] : List Nat) ++ ((DataTypeSimpleString :: s ++ [13]) ++ [10]) =
        (DataTypeSimpleString :: s) ++ [13, 10] := by simp
    rw [hre]
    have hi : ((DataTypeSimpleString :: s) ++ [13, 10]).length - 2 =
        (DataTypeSimpleString :: s).length := by simp
    rw [hi, take_append_self]
    rfl
  simp only [hterm, hch, htke]
  simp

/-- The boundary failure: when the LF of the simple-string line lands
exactly at a fragment boundary (`(len(s) + 2) % bufSize = 0`), the lone-LF
fragment is shorter than two bytes, the loop continues and the next draw
returns `io.EOF`. -/
theorem ReadSimpleString_straddle (bufSize : Nat) (s : List Nat)
    (hclean : ∀ b ∈ s, b ≠ 13 ∧ b ≠ 10) (hB : 0 < bufSize)
    (hmod : (s.length + 2) % bufSize = 0) :
    ReadSimpleString bufSize (WriteSimpleString s) = .error .eof := by
  have hshape : WriteSimpleString s = (DataTypeSimpleString :: s ++ [13]) ++ [10] := by
    simp [WriteSimpleString, writeTerminator, writeString_clean s hclean]
  have h10 : ∀ b ∈ DataTypeSimpleString :: s ++ [13], b ≠ 10 := by
    intro b hb
    rcases List.mem_cons.mp hb with rfl | hb'
    · norm_num [DataTypeSimpleString]
    · rcases List.mem_append.mp hb' with h | h
      · exact (hclean b h).2
      · simp only [List.mem_singleton] at h
        omega
  have hwlen : (DataTypeSimpleString :: s ++ [13]).length = s.length + 2 := by simp
  have hloop := readLineLoop_straddle bufSize hB
    (((DataTypeSimpleString :: s ++ [13]) ++ [10]).length + 1)
    (DataTypeSimpleString :: s ++ [13]) [] 0 (by simp) h10
    (by rw [hwlen]; exact hmod) (by rw [hwlen]; omega)
  unfold ReadSimpleString
  unfold readLine
  rw [hshape]
  rw [show (RState.mk ((DataTypeSimpleString :: s ++ [13]) ++ [10]) ([] : List Nat)).input =
    (DataTypeSimpleString :: s ++ [13]) ++ [10] from rfl]
  rw [hloop]

/-! ## Claims -/

/-- C1 (amended): round-trip for RESP2 values through the writer and reader.
A bulk string of arbitrary bytes (CR/LF included) written by `WriteString`
is returned by `ReadString` with the null flag false; an integer written by
`WriteInt64` is returned by `ReadInteger`; a simple string without CR/LF
written by `WriteSimpleString` is returned by `ReadSimpleString` whenever
its encoded line does not end exactly at a bufio fragment boundary, i.e.
whenever `(s.length + 2) % bufSize ≠ 0`; an array of at least one bulk
string written by `WriteArray` and `WriteString` is returned by
`ReadCommand` with the same args in order.  (Two exceptions, both in the
counterexample: `ReadCommand` deliberately skips the empty array, and a
clean simple string whose line length is an exact multiple of the buffer
size — length 4094, 8190, … at the real 4096-byte buffer — makes
`ReadSimpleString` report end-of-stream.) -/
theorem C1_roundtrip (bufSize : Nat) (hbuf : 23 ≤ bufSize) :
    (∀ s : List Nat, s.length < 2 ^ 63 →
      ReadString bufSize (WriteString s) = .ok (s, false)) ∧
    (∀ i : Int, -(2 ^ 63) ≤ i → i < 2 ^ 63 →
      ReadInteger bufSize (WriteInt64 i) = .ok i) ∧
    (∀ s : List Nat, (∀ b ∈ s, b ≠ 13 ∧ b ≠ 10) → (s.length + 2) % bufSize ≠ 0 →
      ReadSimpleString bufSize (WriteSimpleString s) = .ok s) ∧
    (∀ args : List (List Nat), args ≠ [] → args.length < 2 ^ 63 →
      (∀ a ∈ args, a.length < 2 ^ 63) →
      ReadCommand bufSize (WriteArray (args.length : Int) ++ args.flatMap WriteString) =
        (some ⟨WriteArray (args.length : Int) ++ args.flatMap WriteString, args⟩,
          none, false)) := by
  refine ⟨?_, ?_, ?_, ?_⟩
  · intro s hs
    exact ReadString_write bufSize s hs hbuf
  · intro i hlo hhi
    exact ReadInteger_write bufSize i hlo hhi hbuf
  · intro s hclean hmod
    exact ReadSimpleString_write_general bufSize s hclean (by omega) hmod
  · intro args hne hn hargs
    exact ReadCommand_write bufSize args hne hn hargs hbuf

set_option maxRecDepth 40000 in
/-- C1 witness: the round-trip at concrete values (a bulk with embedded
CR/LF, a negative integer, a simple string, a two-element command). -/
theorem C1_roundtrip_witness :
    ReadString 4096 (WriteString (strBytes "a\r\nb")) = .ok (strBytes "a\r\nb", false) ∧
    ReadInteger 4096 (WriteInt64 (-1337)) = .ok (-1337) ∧
    ReadSimpleString 4096 (WriteSimpleString (strBytes "OK")) = .ok (strBytes "OK") ∧
    ReadCommand 4096 (WriteArray (([strBytes "GET", strBytes "key"] :
        List (List Nat)).length : Int) ++
        ([strBytes "GET", strBytes "key"] : List (List Nat)).flatMap WriteString) =
      (some ⟨WriteArray (([strBytes "GET", strBytes "key"] : List (List Nat)).length : Int) ++
        ([strBytes "GET", strBytes "key"] : List (List Nat)).flatMap WriteString,
        [strBytes "GET", strBytes "key"]⟩, none, false) :=
  ⟨(C1_roundtrip 4096 (by norm_num)).1 (strBytes "a\r\nb") (by decide),
   (C1_roundtrip 4096 (by norm_num)).2.1 (-1337) (by decide) (by decide),
   (C1_roundtrip 4096 (by norm_num)).2.2.1 (strBytes "OK") (by decide) (by decide),
   (C1_roundtrip 4096 (by norm_num)).2.2.2 [strBytes "GET", strBytes "key"]
     (by decide) (by decide) (by decide)⟩

set_option maxRecDepth 40000 in
/-- C1 counterexample: the claim as stated fails in two places.  First, at
the empty array: `WriteArray 0` emits `*0\r\n`, but `ReadCommand` skips the
empty array and reports end-of-stream instead of returning a command with
zero args.  Second, at a clean simple string of length 4094 with the real
4096-byte buffer: the written line `+<4094 bytes>\r\n` is 4097 bytes, the
first ReadSlice fragment is exactly 4096 bytes (buffer full), the second
fragment is the lone `\n`, which is shorter than 2 bytes, so readLine
continues and the next ReadSlice hits end-of-stream. -/
theorem C1_roundtrip_counterexample :
    (ReadCommand 4096 (WriteArray ((([] : List (List Nat)).length : Int)) ++
        ([] : List (List Nat)).flatMap WriteString) = (none, some RErr.eof, true) ∧
      (ReadCommand 4096 (WriteArray 0)).1 = none) ∧
    ReadSimpleString 4096 (WriteSimpleString (List.replicate 4094 97)) =
      .error .eof :=
  ⟨⟨rfl, rfl⟩,
   ReadSimpleString_straddle 4096 (List.replicate 4094 97)
     (fun b hb => by rw [List.eq_of_mem_replicate hb]; exact ⟨by decide, by decide⟩)
     (by norm_num)
     (by rw [List.length_replicate])⟩

/-- C2: for every successful `ReadCommand`, `Raw` holds exactly the on-wire
bytes of the parsed command — the array header line, then each bulk's length
line and content line, every prefix and CRLF included — and `Args` has
exactly one entry per bulk, in order, each equal to that bulk's content
without the trailing CRLF, so a command with `n` elements has `n` args. -/
theorem C2_exact_bytes (bufSize : Nat) (input : List Nat) (cmd : Command)
    (x : Option RErr) (r : Bool)
    (h : ReadCommand bufSize input = (some cmd, x, r)) :
    ∃ (skipped rest hmid : List Nat) (n : Int) (segs : List (List Nat × List Nat)),
      input = skipped ++ cmd.Raw ++ rest ∧
      cmd.Raw = (DataTypeArray :: hmid ++ [13, 10]) ++ (segs.map renderSeg).flatten ∧
      parseInt hmid = some n ∧ 0 < n ∧
      segs.length = n.toNat ∧ cmd.Args = segs.map Prod.snd ∧
      (∀ p ∈ segs, parseInt p.1 = some ((p.2.length : Int))) ∧
      (cmd.Args.length : Int) = n :=
  ReadCommand_inv bufSize input cmd x r h

set_option maxRecDepth 40000 in
/-- C2 witness: the exact-bytes decomposition at the command `PING`. -/
theorem C2_exact_bytes_witness :
    ∃ (skipped rest hmid : List Nat) (n : Int) (segs : List (List Nat × List Nat)),
      strBytes "*1\r\n$4\r\nPING\r\n" = skipped ++
        (Command.mk (strBytes "*1\r\n$4\r\nPING\r\n") [strBytes "PING"]).Raw ++ rest ∧
      (Command.mk (strBytes "*1\r\n$4\r\nPING\r\n") [strBytes "PING"]).Raw =
        (DataTypeArray :: hmid ++ [13, 10]) ++ (segs.map renderSeg).flatten ∧
      parseInt hmid = some n ∧ 0 < n ∧
      segs.length = n.toNat ∧
      (Command.mk (strBytes "*1\r\n$4\r\nPING\r\n") [strBytes "PING"]).Args =
        segs.map Prod.snd ∧
      (∀ p ∈ segs, parseInt p.1 = some ((p.2.length : Int))) ∧
      ((Command.mk (strBytes "*1\r\n$4\r\nPING\r\n") [strBytes "PING"]).Args.length : Int) = n :=
  C2_exact_bytes 4096 (strBytes "*1\r\n$4\r\nPING\r\n")
    ⟨strBytes "*1\r\n$4\r\nPING\r\n", [strBytes "PING"]⟩ none false rfl

/-- C3: `WriteArray 3; WriteString "SET"; WriteString "mykey";
WriteString "myvalue"; Flush` delivers exactly
`*3\r\n$3\r\nSET\r\n$5\r\nmykey\r\n$7\r\nmyvalue\r\n`; in general
`WriteString s` emits `$`, the decimal byte length, CRLF, the bytes of `s`
verbatim, CRLF, and `WriteArray n` emits only `*`, decimal `n`, CRLF. -/
theorem C3_writer_layout :
    (WriteArray 3 ++ WriteString (strBytes "SET") ++ WriteString (strBytes "mykey") ++
        WriteString (strBytes "myvalue") =
      strBytes "*3\r\n$3\r\nSET\r\n$5\r\nmykey\r\n$7\r\nmyvalue\r\n") ∧
    (∀ s : List Nat, WriteString s =
      DataTypeBulkString :: intDec (s.length : Int) ++ [13, 10] ++ s ++ [13, 10]) ∧
    (∀ n : Int, WriteArray n = DataTypeArray :: intDec n ++ [13, 10]) := by
  refine ⟨by decide, ?_, ?_⟩
  · intro s
    simp [WriteString, writePrefix, writeTerminator, writeInt_eq_intDec]
  · intro n
    simp [WriteArray, writePrefix, writeTerminator, writeInt_eq_intDec]

/-- C4: escape law of simple strings.  A payload without CR and LF is
emitted verbatim between `+` and CRLF; in general the payload is emitted
with every CR replaced by backslash-r, every LF by backslash-n, and every
other byte (tab included) unchanged. -/
theorem C4_escape_law :
    (∀ s : List Nat, (∀ b ∈ s, b ≠ 13 ∧ b ≠ 10) →
      WriteSimpleString s = DataTypeSimpleString :: s ++ [13, 10]) ∧
    (∀ s : List Nat,
      WriteSimpleString s = DataTypeSimpleString :: escapeCRLF s ++ [13, 10]) := by
  constructor
  · intro s h
    simp [WriteSimpleString, writeTerminator, writeString_clean s h]
  · intro s
    simp [WriteSimpleString, writeTerminator, writeString_eq_escape]

/-- C4 witness: the escape law at a clean payload and at a payload holding
CR, LF and a tab. -/
theorem C4_escape_law_witness :
    WriteSimpleString (strBytes "OK") = DataTypeSimpleString :: strBytes "OK" ++ [13, 10] ∧
    WriteSimpleString [104, 13, 10, 9] =
      DataTypeSimpleString :: escapeCRLF [104, 13, 10, 9] ++ [13, 10] :=
  ⟨C4_escape_law.1 (strBytes "OK") (by decide), C4_escape_law.2 [104, 13, 10, 9]⟩

/-- C5: a stream beginning with any number of array header lines declaring
a length ≤ 0 (the empty array `*0`, the null array `*-1`, or any other
non-positive header) followed by bytes on which `ReadCommand` succeeds
yields that same command from a single `ReadCommand` call; the skipped
headers leave no trace in the returned frame. -/
theorem C5_empty_array_skip (bufSize : Nat) (ds : List (List Nat)) (rest : List Nat)
    (cmd : Command)
    (hds : ∀ d ∈ ds, (∀ b ∈ d, b ≠ 10) ∧ d.length + 3 ≤ bufSize ∧
      ∃ v, parseInt d = some v ∧ v ≤ 0)
    (hrest : ReadCommand bufSize rest = (some cmd, none, false)) :
    ReadCommand bufSize ((ds.map fun d => DataTypeArray :: d ++ [13, 10]).flatten ++ rest) =
      (some cmd, none, false) :=
  ReadCommand_skip_headers bufSize ds rest cmd hds hrest

set_option maxRecDepth 40000 in
/-- C5 witness: `*0\r\n*-1\r\n` followed by `*1\r\n$4\r\nPING\r\n` returns
the `PING` command from one call. -/
theorem C5_empty_array_skip_witness :
    ReadCommand 4096 ((([strBytes "0", strBytes "-1"] : List (List Nat)).map
        (fun d => DataTypeArray :: d ++ [13, 10])).flatten ++ strBytes "*1\r\n$4\r\nPING\r\n") =
      (some ⟨strBytes "*1\r\n$4\r\nPING\r\n", [strBytes "PING"]⟩, none, false) :=
  C5_empty_array_skip 4096 [strBytes "0", strBytes "-1"] (strBytes "*1\r\n$4\r\nPING\r\n")
    ⟨strBytes "*1\r\n$4\r\nPING\r\n", [strBytes "PING"]⟩
    (by
      intro d hd
      rcases List.mem_cons.mp hd with rfl | hd'
      · exact ⟨by decide, by decide, 0, by decide, by decide⟩
      · rcases List.mem_cons.mp hd' with rfl | hd''
        · exact ⟨by decide, by decide, -1, by decide, by decide⟩
        · simp at hd'')
    rfl

/-- C6 (amended): the 23-byte limit of length lines is enforced only
between buffered fragments.  Whenever at least `bufSize` bytes arrive with
no LF among them, the length-line read stops after one full buffer and
`readValue` returns the invalid-value error, surfaced by `ReadCommand` as
the invalid-multibulk-length protocol error — so memory stays bounded.  A
CRLF-terminated length line longer than 23 bytes that fits inside one
buffer fragment is, however, accepted (see the counterexample). -/
theorem C6_bounded_length_lines (bufSize : Nat) (input : List Nat)
    (hbuf : 23 ≤ bufSize) (hlen : bufSize ≤ input.length)
    (h10 : ∀ b ∈ input.take bufSize, b ≠ 10) :
    readValue bufSize DataTypeArray ⟨input, []⟩ = .error .errValue ∧
    ReadCommand bufSize input = (none, some ErrMultibulkLength, true) :=
  ⟨readValue_overlong bufSize DataTypeArray input hbuf hlen h10,
   ReadCommand_overlong bufSize input hbuf hlen h10⟩

/-- C6 witness: a 23-byte buffer filled with digits and no LF is rejected
with the invalid-multibulk-length error. -/
theorem C6_bounded_length_lines_witness :
    readValue 23 DataTypeArray ⟨List.replicate 23 48 ++ [13, 10], []⟩ = .error .errValue ∧
    ReadCommand 23 (List.replicate 23 48 ++ [13, 10]) =
      (none, some ErrMultibulkLength, true) :=
  C6_bounded_length_lines 23 (List.replicate 23 48 ++ [13, 10]) (by decide) (by decide)
    (by decide)

set_option maxRecDepth 40000 in
/-- C6 counterexample: a length line of 26 bytes before its CRLF (more than
23) that arrives within one 4096-byte buffer fragment is accepted by
`readValue`, and `ReadCommand` parses the following command instead of
surfacing the invalid-multibulk-length error the claim requires. -/
theorem C6_counterexample :
    readValue 4096 DataTypeArray ⟨strBytes "*0000000000000000000000001\r\n", []⟩ =
      .ok (1, ⟨[], strBytes "*0000000000000000000000001\r\n"⟩) ∧
    ReadCommand 4096 (strBytes "*0000000000000000000000001\r\n$2\r\nhi\r\n") =
      (some ⟨strBytes "*0000000000000000000000001\r\n$2\r\nhi\r\n", [strBytes "hi"]⟩,
        none, false) := ⟨rfl, rfl⟩

/-- C7: the integer parser at the inputs the claim describes.  The lone
minus sign is accepted by the code (it returns 0 with no error) because the
dead `len(b) < 1` check never fires — the claim (and the spec's stated
intent, a `len(b) == 0` check after consuming the sign) requires the
invalid-value error there.  Empty input and non-digit bytes are rejected,
and sign-plus-digits inputs parse. -/
theorem C7_parseInt_lone_minus :
    parseInt [45] = some 0 ∧ parseInt [] = none ∧
    parseInt (strBytes "-12a") = none ∧ parseInt (strBytes "-42") = some (-42) := by
  refine ⟨rfl, rfl, rfl, by norm_num; rfl⟩

/-- C8: error atomicity of `ReadCommand`.  Every call returns either a
command handle with no error (frame kept), or no handle with an error and
the frame released to the pool — never both; in particular the negative
bulk length `$-1` inside a command surfaces the invalid-bulk-length error
with a nil handle. -/
theorem C8_error_atomicity :
    (∀ bufSize input, ((ReadCommand bufSize input).2.1 = none ∧
        (ReadCommand bufSize input).2.2 = false ∧ (ReadCommand bufSize input).1 ≠ none) ∨
      ((ReadCommand bufSize input).1 = none ∧ (ReadCommand bufSize input).2.2 = true ∧
        (ReadCommand bufSize input).2.1 ≠ none)) ∧
    ReadCommand 4096 (strBytes "*1\r\n$-1\r\n") = (none, some ErrBulkLength, true) := by
  constructor
  · intro bufSize input
    unfold ReadCommand
    rcases readCommandLoop bufSize (input.length + 1) input with e | c
    · right
      exact ⟨rfl, rfl, by simp⟩
    · left
      exact ⟨rfl, rfl, by simp⟩
  · rfl

/-- C9: `WriteRawError` substitutes `ERR` for an empty kind, writes a
single space between kind and msg exactly when msg is non-empty, escapes
the payloads per the CR/LF rule, terminates with CRLF, and in particular
`WriteRawError "" ""` emits `-ERR\r\n`. -/
theorem C9_write_raw_error :
    (∀ kind msg : List Nat, WriteRawError kind msg =
      DataTypeError :: escapeCRLF (if kind = [] then strBytes "ERR" else kind) ++
        (if msg = [] then [] else 32 :: escapeCRLF msg) ++ [13, 10]) ∧
    WriteRawError [] [] = strBytes "-ERR\r\n" := by
  constructor
  · intro kind msg
    by_cases hm : msg = []
    · simp [WriteRawError, hm, writeString_eq_escape, writeTerminator]
    · simp [WriteRawError, hm, writeString_eq_escape, writeTerminator]
  · rfl

/-- C10: `WriteRawError` (and `WriteError`) escape the kind as well as the
msg, so the emitted error line never contains a raw CR or LF byte other
than its final CRLF terminator, whatever the two fields hold. -/
theorem C10_error_line_no_raw_crlf :
    ∀ kind msg : List Nat, ∃ body : List Nat,
      WriteRawError kind msg = body ++ [13, 10] ∧
      (∀ b ∈ body, b ≠ 13 ∧ b ≠ 10) ∧
      WriteError (kind, msg) = WriteRawError kind msg := by
  intro kind msg
  refine ⟨DataTypeError :: writeString (if kind = [] then strBytes "ERR" else kind) ++
      (if msg ≠ [] then 32 :: writeString msg else []), ?_, ?_, rfl⟩
  · simp [WriteRawError, writeTerminator]
  · intro b hb
    rcases List.mem_cons.mp hb with rfl | hb'
    · norm_num [DataTypeError]
    · rcases List.mem_append.mp hb' with h | h
      · rw [writeString_eq_escape] at h
        exact escapeCRLF_no_crlf _ b h
      · by_cases hm : msg = []
        · simp [hm] at h
        · simp only [hm, ne_eq, not_false_eq_true, if_true, List.mem_cons] at h
          rcases h with rfl | h
          · omega
          · rw [writeString_eq_escape] at h
            exact escapeCRLF_no_crlf _ b h

end Radish

